import Mathlib

/-!
# chihaya: UDP tracker request parser (frontend/udp/parser.go)

A shallow embedding of `ParseAnnounce`, `handleOptionalParameters` and
`ParseScrape`.  Byte slices are lists of `UInt8`; every Go index `s[i]` and
slice `s[a:b]` is a checked operation, so that a run-time panic of the Go
code is a visible outcome (`Failure.indexOutOfRange`) of the model.  The two
`for` loops are run with a fuel counter equal to the length of the packet;
running out of fuel is the outcome `Failure.outOfFuel`.
-/

namespace Chihaya

/-- A byte of a UDP payload. -/
abbrev Byte := UInt8

/-- The Go type `bittorrent.ClientError`: a string. -/
abbrev ClientError := String

/-- The constant `errMalformedPacket` (parser.go, line 40). -/
def errMalformedPacket : ClientError := "malformed packet"

/-- The constant `errMalformedIP` (parser.go, line 41). -/
def errMalformedIP : ClientError := "malformed IP address"

/-- The constant `errMalformedEvent` (parser.go, line 42). -/
def errMalformedEvent : ClientError := "malformed event ID"

/-- The constant `errUnknownAction` (parser.go, line 43). -/
def errUnknownAction : ClientError := "unknown action ID"

/-- The constant `errBadConnectionID` (parser.go, line 44). -/
def errBadConnectionID : ClientError := "bad connection ID"

/-- Every way a call can end without a result: an `error` value returned by
the Go function, a run-time panic on an index or slice expression, or the
model's loop fuel running out. -/
inductive Failure where
  | client (e : ClientError)
  | indexOutOfRange
  | outOfFuel
  deriving DecidableEq, Repr

/-- Outcome of a call: a result or a `Failure`. -/
abbrev Result (α : Type) := Except Failure α

deriving instance DecidableEq for Except

/-- The Go index expression `s[i]`. -/
def index {α : Type} (s : List α) (i : Nat) : Result α :=
  match s[i]? with
  | some b => .ok b
  | none => .error .indexOutOfRange

/-- The Go slice expression `s[a:b]` on a slice whose capacity is its length. -/
def slice {α : Type} (s : List α) (a b : Nat) : Result (List α) :=
  if a ≤ b ∧ b ≤ s.length then .ok ((s.drop a).take (b - a))
  else .error .indexOutOfRange

/-- The Go slice expression `s[a:]`. -/
def sliceFrom {α : Type} (s : List α) (a : Nat) : Result (List α) :=
  if a ≤ s.length then .ok (s.drop a) else .error .indexOutOfRange

/-- Option-Types as described in BEP 41 and BEP 45 (parser.go, lines 18-22). -/
def optionEndOfOptions : Byte := 0x0

/-- Option type NOP. -/
def optionNOP : Byte := 0x1

/-- Option type URL-Data. -/
def optionURLData : Byte := 0x2

/-- Modelled from the spec: the enumeration `bittorrent.Event`, declared
outside these files; "one of {None, Completed, Started, Stopped}". -/
inductive Event where
  | None
  | Completed
  | Started
  | Stopped
  deriving DecidableEq, Repr

/-- The table `eventIDs` (parser.go, lines 33-38). -/
def eventIDs : List Event :=
  [Event.None, Event.Completed, Event.Started, Event.Stopped]

/-- Modelled from the spec: `bittorrent.InfoHash`, declared outside these
files; "exactly 20 raw bytes, opaque identifier". -/
abbrev InfoHash := List Byte

/-- Modelled from the spec: `bittorrent.PeerID`, declared outside these
files; "exactly 20 raw bytes, opaque identifier". -/
abbrev PeerID := List Byte

/-- Modelled from the spec: `bittorrent.InfoHashFromBytes`, declared outside
these files; the info-hash is the raw bytes it is given. -/
def InfoHashFromBytes (b : List Byte) : InfoHash := b

/-- Modelled from the spec: `bittorrent.PeerIDFromBytes`, declared outside
these files; the peer id is the raw bytes it is given. -/
def PeerIDFromBytes (b : List Byte) : PeerID := b

/-- The Go type `net.IP`, a byte slice; `none` is the nil slice. -/
abbrev IP := Option (List Byte)

/-- Modelled from the spec: the interface `bittorrent.Params`, declared
outside these files; "an optional, possibly-empty ordered collection of
option entries"; `none` is the nil interface value. -/
abbrev Params := Option (List (List Byte))

/-- Modelled from the spec: the struct `bittorrent.Peer`, with the fields
the parser fills in. -/
structure Peer where
  ID : PeerID
  IP : IP
  Port : Nat
  deriving DecidableEq, Repr

/-- Modelled from the spec: the struct `bittorrent.AnnounceRequest`, with the
fields the parser fills in. -/
structure AnnounceRequest where
  Event : Event
  InfoHash : InfoHash
  NumWant : Nat
  Left : Nat
  Downloaded : Nat
  Uploaded : Nat
  Peer : Peer
  Params : Params
  deriving DecidableEq, Repr

/-- Modelled from the spec: the struct `bittorrent.ScrapeRequest`, with the
field the parser fills in. -/
structure ScrapeRequest where
  InfoHashes : List InfoHash
  deriving DecidableEq, Repr

/-- Modelled from the spec: the struct `Request` of package udp, declared
outside these files; "an immutable byte buffer (the UDP payload) plus an
optional sender network address". -/
structure Request where
  Packet : List Byte
  IP : IP
  deriving DecidableEq, Repr

/-- The Go library function `binary.BigEndian.Uint16`:
`uint16(b[1]) | uint16(b[0])<<8`; the two operands of `|` have no bit in
common, so `|` is `+`. -/
def Uint16 (b : List Byte) : Result Nat := do
  let b1 ← index b 1
  let b0 ← index b 0
  return (b1.toNat + b0.toNat * 2 ^ 8) % 2 ^ 16

/-- The Go library function `binary.BigEndian.Uint32`. -/
def Uint32 (b : List Byte) : Result Nat := do
  let b3 ← index b 3
  let b0 ← index b 0
  let b1 ← index b 1
  let b2 ← index b 2
  return (b3.toNat + b2.toNat * 2 ^ 8 + b1.toNat * 2 ^ 16 + b0.toNat * 2 ^ 24) % 2 ^ 32

/-- The Go library function `binary.BigEndian.Uint64`. -/
def Uint64 (b : List Byte) : Result Nat := do
  let b7 ← index b 7
  let b0 ← index b 0
  let b1 ← index b 1
  let b2 ← index b 2
  let b3 ← index b 3
  let b4 ← index b 4
  let b5 ← index b 5
  let b6 ← index b 6
  return (b7.toNat + b6.toNat * 2 ^ 8 + b5.toNat * 2 ^ 16 + b4.toNat * 2 ^ 24
    + b3.toNat * 2 ^ 32 + b2.toNat * 2 ^ 40 + b1.toNat * 2 ^ 48 + b0.toNat * 2 ^ 56) % 2 ^ 64

/-- What one iteration of the loop of `handleOptionalParameters` does with
the cursor: go on at a new cursor, or return (`return` without error). -/
inductive OptionStep where
  | next (optionStartIndex : Nat)
  | done
  deriving DecidableEq, Repr

/-- The body of the `for` loop of `handleOptionalParameters`
(parser.go, lines 109-133) at cursor `optionStartIndex`. -/
def optionStep (packet : List Byte) (optionStartIndex : Nat) : Result OptionStep := do
  let option ← index packet optionStartIndex
  if option = optionEndOfOptions then
    return .done
  else if option = optionNOP then
    return .next (optionStartIndex + 1)
  else if option = optionURLData then
    if optionStartIndex + 1 > packet.length - 1 then
      throw (.client errMalformedPacket)
    else do
      let lengthByte ← index packet (optionStartIndex + 1)
      let length := lengthByte.toNat
      if optionStartIndex + 1 + length > packet.length - 1 then
        throw (.client errMalformedPacket)
      else
        return .next (optionStartIndex + (1 + length))
  else
    return .done

/-- The `for` loop of `handleOptionalParameters` (parser.go, lines 108-136),
started at cursor `optionStartIndex`, with at most `fuel` iterations.  The
named result `params` is never assigned, so every `return` gives nil. -/
def optionLoop (packet : List Byte) : Nat → Nat → Result Params
  | fuel, optionStartIndex =>
    if optionStartIndex < packet.length - 1 then
      match fuel with
      | 0 => .error .outOfFuel
      | fuel + 1 =>
        match optionStep packet optionStartIndex with
        | .error e => .error e
        | .ok .done => .ok none
        | .ok (.next j) => optionLoop packet fuel j
    else
      .ok none

/-- The function `handleOptionalParameters` (parser.go, lines 102-137). -/
def handleOptionalParameters (packet : List Byte) : Result Params :=
  if packet.length ≤ 98 then
    .ok none
  else
    optionLoop packet packet.length 98

/-- The function `ParseAnnounce` (parser.go, lines 50-98). -/
def ParseAnnounce (r : Request) (allowIPSpoofing : Bool) : Result AnnounceRequest :=
  if r.Packet.length < 98 then
    .error (.client errMalformedPacket)
  else do
    let infohash ← slice r.Packet 16 36
    let peerID ← slice r.Packet 36 56
    let downloaded ← slice r.Packet 56 64 >>= Uint64
    let left ← slice r.Packet 64 72 >>= Uint64
    let uploaded ← slice r.Packet 72 80 >>= Uint64
    let eventByte ← index r.Packet 83
    let eventID := eventByte.toNat
    if eventID ≥ eventIDs.length then
      throw (.client errMalformedEvent)
    else do
      let ipbytes ← slice r.Packet 84 88
      let ip : IP := if allowIPSpoofing then some ipbytes else r.IP
      if !allowIPSpoofing && r.IP.isNone then
        throw (.client errMalformedIP)
      else do
        let numWant ← slice r.Packet 92 96 >>= Uint32
        let port ← slice r.Packet 96 98 >>= Uint16
        let params ← handleOptionalParameters r.Packet
        let event ← index eventIDs eventID
        return {
          Event := event
          InfoHash := InfoHashFromBytes infohash
          NumWant := numWant % 2 ^ 32
          Left := left
          Downloaded := downloaded
          Uploaded := uploaded
          Peer := { ID := PeerIDFromBytes peerID, IP := ip, Port := port }
          Params := params }

/-- The `for` loop of `ParseScrape` (parser.go, lines 155-158), with at most
`fuel` iterations: `packet` is the rest of the buffer, `infohashes` the list
built so far. -/
def scrapeLoop : Nat → List Byte → List InfoHash → Result (List InfoHash)
  | fuel, packet, infohashes =>
    if packet.length ≥ 20 then
      match fuel with
      | 0 => .error .outOfFuel
      | fuel + 1 =>
        match slice packet 0 20, sliceFrom packet 20 with
        | .ok head, .ok rest =>
          scrapeLoop fuel rest (infohashes ++ [InfoHashFromBytes head])
        | .error e, _ => .error e
        | _, .error e => .error e
    else
      .ok infohashes

/-- The function `ParseScrape` (parser.go, lines 140-163). -/
def ParseScrape (r : Request) : Result ScrapeRequest :=
  if r.Packet.length < 36 then
    .error (.client errMalformedPacket)
  else do
    let packet ← sliceFrom r.Packet 16
    if packet.length % 20 ≠ 0 then
      throw (.client errMalformedPacket)
    else do
      let infohashes ← scrapeLoop r.Packet.length packet []
      return { InfoHashes := infohashes }

/-! ## Definitions used to state the properties -/

/-- The big-endian unsigned value of a byte string (most significant byte
first), as the spec words it. -/
def bigEndian (bs : List Byte) : Nat :=
  bs.foldl (fun acc b => acc * 256 + b.toNat) 0

/-- The request `ParseAnnounce` builds from a packet of at least 98 bytes once
all its checks have passed. -/
def announceOf (p : List Byte) (ip : IP) (event : Event) (params : Params) : AnnounceRequest :=
  { Event := event
    InfoHash := (p.drop 16).take 20
    NumWant := bigEndian ((p.drop 92).take 4)
    Left := bigEndian ((p.drop 64).take 8)
    Downloaded := bigEndian ((p.drop 56).take 8)
    Uploaded := bigEndian ((p.drop 72).take 8)
    Peer := { ID := (p.drop 36).take 20, IP := ip, Port := bigEndian ((p.drop 96).take 2) }
    Params := params }

/-- A sample announce packet: 98 header bytes with event byte `ev`, client
IP bytes `ipbytes`, num_want 0x80000005 and port 8080, followed by `trailer`. -/
def samplePacketWith (ev : Byte) (ipbytes : List Byte) (trailer : List Byte) : List Byte :=
  List.replicate 16 0 ++ List.replicate 20 0xAA ++ List.replicate 20 0xBB
    ++ [0, 0, 0, 0, 0, 0, 1, 0] ++ [0, 0, 0, 0, 0, 0, 0, 7] ++ [0, 0, 0, 0, 0, 0, 2, 1]
    ++ [0, 0, 0, ev] ++ ipbytes ++ [9, 9, 9, 9] ++ [0x80, 0, 0, 5] ++ [0x1f, 0x90]
    ++ trailer

/-- The sample announce packet with client IP 10.0.0.1. -/
def samplePacket (ev : Byte) (trailer : List Byte) : List Byte :=
  samplePacketWith ev [10, 0, 0, 1] trailer

/-- The 20-byte chunks of a buffer, in order: chunk `i` is bytes
[20 i, 20 i + 20). -/
def chunks (packet : List Byte) : List InfoHash :=
  (List.range (packet.length / 20)).map (fun i => (packet.drop (20 * i)).take 20)

/-- A sample scrape packet: the 16 header bytes and three info-hashes. -/
def sampleScrapePacket : List Byte :=
  List.replicate 16 0 ++ List.replicate 20 1 ++ List.replicate 20 2 ++ List.replicate 20 3

/-- The sample announce packet with other bytes in the fields the parser does
not read: connection id, action and transaction id [0,16), the three
high-order event bytes [80,83) and the key [88,92). -/
def samplePacketUnread (ev : Byte) (trailer : List Byte) : List Byte :=
  List.replicate 16 0xFF ++ List.replicate 20 0xAA ++ List.replicate 20 0xBB
    ++ [0, 0, 0, 0, 0, 0, 1, 0] ++ [0, 0, 0, 0, 0, 0, 0, 7] ++ [0, 0, 0, 0, 0, 0, 2, 1]
    ++ [1, 2, 3, ev] ++ [10, 0, 0, 1] ++ [7, 7, 7, 7] ++ [0x80, 0, 0, 5] ++ [0x1f, 0x90]
    ++ trailer

/-! ## stats/percentile.go

Two kinds of `float64` occur in this file.  The samples are only compared
with one another and stored: the model takes them from any linearly ordered
type `α`, which stands for the floats without NaN under Go's `<` and `>`.
The other floats (`percentile`, `target`, the argument of `round`) are only
computed with: the model takes them from a type `F` with the operations of
`Float64Ops`, about which nothing is assumed, so that what is proved holds
for every percentile and whatever these operations give (rounding,
infinities, NaN).  The counters are `int64` and wrap around. -/

/-- The `float64` operations of percentile.go on numbers other than samples:
the conversion `float64(n)` of an `int64`, `+`, `-`, `*`, `/`, `math.Max`,
`<`, the conversion `int64(x)`, and the constants `0.0`, `0.5` and `2`. -/
structure Float64Ops (F : Type) where
  ofInt64 : Int → F
  add : F → F → F
  sub : F → F → F
  mul : F → F → F
  div : F → F → F
  max : F → F → F
  lt : F → F → Bool
  toInt64 : F → Int
  zero : F
  half : F
  two : F

/-- The value an `int64` computation has after wrap-around. -/
def wrapInt64 (x : Int) : Int :=
  (x + 9223372036854775808) % 18446744073709551616 - 9223372036854775808

/-- The function `round` (percentile.go, lines 86-94). -/
def round {F : Type} (ops : Float64Ops F) (value : F) : Int :=
  let value := if ops.lt value ops.zero then ops.sub value ops.half else ops.add value ops.half
  wrapInt64 (ops.toInt64 value)

/-- The struct `Percentile` (percentile.go, lines 10-18).  The slice `values`
is given by its elements and by `spare`, the part of its backing array
between its length and its capacity; `value` holds the float whose bits the
source keeps in a `uint64`. -/
structure Percentile (F α : Type) where
  percentile : F
  samples : Int
  offset : Int
  values : List α
  spare : List α
  value : α
  deriving DecidableEq, Repr

/-- The capacity `cap(p.values)`. -/
def Percentile.cap {F α : Type} (p : Percentile F α) : Nat :=
  p.values.length + p.spare.length

/-- The function `NewPercentile` (percentile.go, lines 20-25):
`make([]float64, 0, sampleWindow)` is an empty slice over a zeroed array, and
the zero `uint64` of `value` is the bits of 0.0. -/
def NewPercentile {F α : Type} [Zero α] (percentile : F) (sampleWindow : Nat) :
    Percentile F α :=
  { percentile := percentile, samples := 0, offset := 0, values := [],
    spare := List.replicate sampleWindow 0, value := 0 }

/-- The Go index expression `s[i]` with an index of type `int64`. -/
def indexInt {α : Type} (s : List α) (i : Int) : Result α :=
  if 0 ≤ i then index s i.toNat else .error .indexOutOfRange

/-- The Go assignment `s[i] = v`. -/
def assign {α : Type} (s : List α) (i : Nat) (v : α) : Result (List α) :=
  if i < s.length then .ok (s.set i v) else .error .indexOutOfRange

/-- The Go built-in `copy(values[a:], src)` seen on the whole slice `values`:
the first min(len(values) - a, len(src)) elements of `src` are written from
position `a` on; `src` is read before anything is written. -/
def copyAt {α : Type} (values : List α) (a : Nat) (src : List α) : List α :=
  let n := min (values.length - a) src.length
  values.take a ++ src.take n ++ values.drop (a + n)

/-- The loop of the Go library function `sort.Search` for the predicate
`a[h] >= x` of `sort.SearchFloat64s`: binary search between `i` and `j`, with
at most `fuel` iterations. -/
def searchLoop {α : Type} [LinearOrder α] (a : List α) (x : α) : Nat → Nat → Nat → Result Nat
  | fuel, i, j =>
    if i < j then
      match fuel with
      | 0 => .error .outOfFuel
      | fuel + 1 =>
        let h := (i + j) / 2
        match index a h with
        | .error e => .error e
        | .ok ah => if ¬ (ah ≥ x) then searchLoop a x fuel (h + 1) j else searchLoop a x fuel i h
    else
      .ok i

/-- The Go library function `sort.SearchFloat64s`. -/
def SearchFloat64s {α : Type} [LinearOrder α] (a : List α) (x : α) : Result Nat :=
  searchLoop a x a.length 0 a.length

/-- The value of the local variable `offset` of `AddSample` (percentile.go,
lines 31-32) in a call on the state `p`: `samples` is already incremented. -/
def computedOffset {F α : Type} (ops : Float64Ops F) (p : Percentile F α) : Int :=
  let samples := wrapInt64 (p.samples + 1)
  let target := ops.sub (ops.mul (ops.ofInt64 samples) p.percentile)
    (ops.div (ops.ofInt64 p.cap) ops.two)
  round ops (ops.max target ops.zero)

/-- The method `AddSample` from its first statement to the end of the outer
`if` (percentile.go, lines 28-60): the update of `samples`, `offset` and
`values`. -/
def updateValues {F α : Type} [LinearOrder α] (ops : Float64Ops F) (p : Percentile F α)
    (sample : α) : Result (Percentile F α) :=
  let samples := wrapInt64 (p.samples + 1)
  if samples > (p.cap : Int) then
    let target := ops.sub (ops.mul (ops.ofInt64 samples) p.percentile)
      (ops.div (ops.ofInt64 p.cap) ops.two)
    let offset := round ops (ops.max target ops.zero)
    do
    let first ← index p.values 0
    if sample > first then
      if offset > p.offset then do
        let tail ← sliceFrom p.values 1
        let idx ← SearchFloat64s tail sample
        let src ← slice p.values 1 (idx + 1)
        let values ← assign (copyAt p.values 0 src) idx sample
        return { p with samples := samples, offset := wrapInt64 (p.offset + 1), values := values }
      else do
        let last ← index p.values (p.values.length - 1)
        if sample < last then do
          let idx ← SearchFloat64s p.values sample
          let _ ← sliceFrom p.values (idx + 1)
          let src ← sliceFrom p.values idx
          let values ← assign (copyAt p.values (idx + 1) src) idx sample
          return { p with samples := samples, values := values }
        else
          return { p with samples := samples }
    else
      if offset > p.offset then
        return { p with samples := samples, offset := wrapInt64 (p.offset + 1) }
      else do
        let _ ← sliceFrom p.values 1
        let values ← assign (copyAt p.values 1 p.values) 0 sample
        return { p with samples := samples, values := values }
  else do
    let idx ← SearchFloat64s p.values sample
    match p.spare with
    | [] => throw .indexOutOfRange
    | z :: spare =>
      let extended := p.values ++ [z]
      let _ ← sliceFrom extended (idx + 1)
      let src ← sliceFrom extended idx
      let values ← assign (copyAt extended (idx + 1) src) idx sample
      return { p with samples := samples, values := values, spare := spare }

/-- The method `index` (percentile.go, lines 71-80). -/
def Percentile.index {F α : Type} (ops : Float64Ops F) (p : Percentile F α) : Int :=
  let idx := round ops (ops.sub (ops.mul (ops.ofInt64 p.samples) p.percentile)
    (ops.ofInt64 p.offset))
  let last := (p.values.length : Int) - 1
  if idx > last then last else idx

/-- The method `AddSample` (percentile.go, lines 27-64): the update of
`values`, then the read of `p.values[p.index()]`, whose bits are stored in
`value`. -/
def AddSample {F α : Type} [LinearOrder α] (ops : Float64Ops F) (p : Percentile F α)
    (sample : α) : Result (Percentile F α) := do
  let q ← updateValues ops p sample
  let v ← indexInt q.values (q.index ops)
  return { q with value := v }

/-- The method `Value` (percentile.go, lines 66-69). -/
def Percentile.Value {F α : Type} (p : Percentile F α) : α := p.value

/-- A sequence of `AddSample` calls on one `Percentile`, with the given
samples in order. -/
def addSamples {F α : Type} [LinearOrder α] (ops : Float64Ops F) (p : Percentile F α) :
    List α → Result (Percentile F α)
  | [] => .ok p
  | sample :: rest =>
    match AddSample ops p sample with
    | .error e => .error e
    | .ok q => addSamples ops q rest

/-- The state of a `Percentile` of sample window `w` after `n` calls of
`AddSample`, fewer than 2^63: the call counter is `n`, `values` is sorted in
non-decreasing order and has min(n, w) elements, and its capacity is `w`. -/
def PercentileInv {F α : Type} [LinearOrder α] (w n : Nat) (p : Percentile F α) : Prop :=
  n < 9223372036854775808 ∧ p.samples = (n : Int) ∧ p.values.Sorted (· ≤ ·) ∧
    p.values.length = min n w ∧ p.cap = w

/-- Exact arithmetic on the multiples of 0.5, each held as twice its value:
on such numbers of small size `float64` arithmetic is exact too.  `mul` and
`div` are exact when the result is a multiple of 0.5; `toInt64` truncates
toward zero. -/
def halvesOps : Float64Ops Int :=
  { ofInt64 := fun n => 2 * n
    add := fun a b => a + b
    sub := fun a b => a - b
    mul := fun a b => Int.tdiv (a * b) 2
    div := fun a b => Int.tdiv (2 * a) b
    max := fun a b => if a < b then b else a
    lt := fun a b => decide (a < b)
    toInt64 := fun a => Int.tdiv a 2
    zero := 0
    half := 1
    two := 4 }

/-! ## Auxiliary facts and the claims -/

set_option maxRecDepth 4000

theorem index_eq_ok {α : Type} (s : List α) (i : Nat) (b : α) (h : s[i]? = some b) :
    index s i = .ok b := by
  simp [index, h]

theorem slice_eq_ok {α : Type} (s : List α) (a b : Nat) (hab : a ≤ b) (hb : b ≤ s.length) :
    slice s a b = .ok ((s.drop a).take (b - a)) := by
  simp [slice, hab, hb]

theorem byte_lt (b : Byte) : b.toNat < 256 := b.val.isLt

theorem Uint16_eq (bs : List Byte) (h : bs.length = 2) : Uint16 bs = .ok (bigEndian bs) := by
  match bs, h with
  | [b0, b1], _ =>
    have h0 := byte_lt b0
    have h1 := byte_lt b1
    simp only [Uint16, index, bigEndian, List.foldl, bind, Except.bind, pure, Except.pure,
      List.getElem?_cons_zero, List.getElem?_cons_succ]
    congr 1
    omega

theorem Uint32_eq (bs : List Byte) (h : bs.length = 4) : Uint32 bs = .ok (bigEndian bs) := by
  match bs, h with
  | [b0, b1, b2, b3], _ =>
    have h0 := byte_lt b0
    have h1 := byte_lt b1
    have h2 := byte_lt b2
    have h3 := byte_lt b3
    simp only [Uint32, index, bigEndian, List.foldl, bind, Except.bind, pure, Except.pure,
      List.getElem?_cons_zero, List.getElem?_cons_succ]
    congr 1
    omega

theorem Uint64_eq (bs : List Byte) (h : bs.length = 8) : Uint64 bs = .ok (bigEndian bs) := by
  match bs, h with
  | [b0, b1, b2, b3, b4, b5, b6, b7], _ =>
    have h0 := byte_lt b0
    have h1 := byte_lt b1
    have h2 := byte_lt b2
    have h3 := byte_lt b3
    have h4 := byte_lt b4
    have h5 := byte_lt b5
    have h6 := byte_lt b6
    have h7 := byte_lt b7
    simp only [Uint64, index, bigEndian, List.foldl, bind, Except.bind, pure, Except.pure,
      List.getElem?_cons_zero, List.getElem?_cons_succ]
    congr 1
    omega

theorem length_drop_take {α : Type} (s : List α) (a n : Nat) (h : a + n ≤ s.length) :
    ((s.drop a).take n).length = n := by
  simp [List.length_take, List.length_drop]; omega

theorem bigEndian_lt (bs : List Byte) : bigEndian bs < 256 ^ bs.length := by
  suffices h : ∀ (l : List Byte) (acc : Nat),
      l.foldl (fun acc b => acc * 256 + b.toNat) acc < (acc + 1) * 256 ^ l.length by
    simpa [bigEndian] using h bs 0
  intro l
  induction l with
  | nil => intro acc; simp
  | cons b t ih =>
    intro acc
    have hb := byte_lt b
    have h1 := ih (acc * 256 + b.toNat)
    simp only [List.foldl, List.length_cons]
    calc List.foldl (fun acc b => acc * 256 + b.toNat) (acc * 256 + b.toNat) t
        < (acc * 256 + b.toNat + 1) * 256 ^ t.length := h1
      _ ≤ ((acc + 1) * 256) * 256 ^ t.length := Nat.mul_le_mul_right _ (by omega)
      _ = (acc + 1) * 256 ^ (t.length + 1) := by rw [pow_succ]; ring

theorem ParseAnnounce_eq (p : List Byte) (ip : IP) (allowIPSpoofing : Bool) (b : Byte)
    (h98 : 98 ≤ p.length) (hb : p[83]? = some b) :
    ParseAnnounce ⟨p, ip⟩ allowIPSpoofing =
      if 4 ≤ b.toNat then .error (.client errMalformedEvent)
      else if allowIPSpoofing = false ∧ ip = none then .error (.client errMalformedIP)
      else match handleOptionalParameters p, eventIDs[b.toNat]? with
        | .error e, _ => .error e
        | .ok _, none => .error .indexOutOfRange
        | .ok params, some event =>
          .ok (announceOf p (if allowIPSpoofing then some ((p.drop 84).take 4) else ip)
            event params) := by
  have hlt : ¬ p.length < 98 := by omega
  have e1 := Uint64_eq ((p.drop 56).take 8) (length_drop_take p 56 8 (by omega))
  have e2 := Uint64_eq ((p.drop 64).take 8) (length_drop_take p 64 8 (by omega))
  have e3 := Uint64_eq ((p.drop 72).take 8) (length_drop_take p 72 8 (by omega))
  have e4 := Uint32_eq ((p.drop 92).take 4) (length_drop_take p 92 4 (by omega))
  have e5 := Uint16_eq ((p.drop 96).take 2) (length_drop_take p 96 2 (by omega))
  have hmod : bigEndian ((p.drop 92).take 4) < 4294967296 := by
    have := bigEndian_lt ((p.drop 92).take 4)
    rw [length_drop_take p 92 4 (by omega)] at this
    simpa using this
  simp only [ParseAnnounce, hlt, if_false, bind, Except.bind, pure, Except.pure,
    slice_eq_ok p 16 36 (by omega) (by omega), slice_eq_ok p 36 56 (by omega) (by omega),
    slice_eq_ok p 56 64 (by omega) (by omega), slice_eq_ok p 64 72 (by omega) (by omega),
    slice_eq_ok p 72 80 (by omega) (by omega), slice_eq_ok p 84 88 (by omega) (by omega),
    slice_eq_ok p 92 96 (by omega) (by omega), slice_eq_ok p 96 98 (by omega) (by omega),
    index_eq_ok p 83 b hb, e1, e2, e3, e4, e5, throw, throwThe, MonadExceptOf.throw]
  by_cases hev : 4 ≤ b.toNat
  · simp [hev, eventIDs]
  · have hev2 : ¬ (b.toNat ≥ eventIDs.length) := by simpa [eventIDs] using hev
    simp only [hev, hev2, if_false]
    cases allowIPSpoofing <;> cases ip <;>
      cases hh : handleOptionalParameters p <;>
      cases he : eventIDs[b.toNat]? <;>
      simp [index, he, hmod, announceOf, InfoHashFromBytes, PeerIDFromBytes]

theorem optionStep_cases (p : List Byte) (i : Nat) (h : i < p.length - 1) :
    optionStep p i = .ok .done ∨
    (∃ j, i < j ∧ j ≤ p.length - 1 ∧ optionStep p i = .ok (.next j)) ∨
    optionStep p i = .error (.client errMalformedPacket) := by
  obtain ⟨x, hx⟩ : ∃ x, p[i]? = some x :=
    ⟨p[i], List.getElem?_eq_getElem (by omega)⟩
  obtain ⟨y, hy⟩ : ∃ y, p[i + 1]? = some y :=
    ⟨p[i + 1], List.getElem?_eq_getElem (by omega)⟩
  simp only [optionStep, index, hx, hy, bind, Except.bind, pure, Except.pure, throw, throwThe,
    MonadExceptOf.throw]
  split_ifs with h0 h1 h2 h3 h4
  · exact Or.inl rfl
  · exact Or.inr (Or.inl ⟨i + 1, by omega, by omega, rfl⟩)
  · exact Or.inr (Or.inr rfl)
  · exact Or.inr (Or.inr rfl)
  · exact Or.inr (Or.inl ⟨i + (1 + y.toNat), by omega, by omega, rfl⟩)
  · exact Or.inl rfl

theorem optionLoop_cases (p : List Byte) :
    ∀ (fuel i : Nat), p.length - 1 - i ≤ fuel →
      optionLoop p fuel i = .ok none ∨
      optionLoop p fuel i = .error (.client errMalformedPacket) := by
  intro fuel
  induction fuel with
  | zero =>
    intro i hf
    have : ¬ i < p.length - 1 := by omega
    left
    simp [optionLoop, this]
  | succ n ih =>
    intro i hf
    by_cases hi : i < p.length - 1
    · rcases optionStep_cases p i hi with hd | ⟨j, hij, _, hj⟩ | he
      · left; simp [optionLoop, hi, hd]
      · have := ih j (by omega)
        simpa [optionLoop, hi, hj] using this
      · right; simp [optionLoop, hi, he]
    · left
      simp [optionLoop, hi]

theorem handleOptionalParameters_cases (p : List Byte) :
    handleOptionalParameters p = .ok none ∨
    handleOptionalParameters p = .error (.client errMalformedPacket) := by
  unfold handleOptionalParameters
  split_ifs with h
  · exact Or.inl rfl
  · exact optionLoop_cases p p.length 98 (by omega)

theorem byte_lt_four_iff (b : Byte) : b.toNat < 4 ↔ b = 0 ∨ b = 1 ∨ b = 2 ∨ b = 3 := by
  rcases b with ⟨⟨n, hn⟩⟩
  constructor
  · intro h
    have h4 : n < 4 := h
    interval_cases n <;> simp
  · rintro (h | h | h | h) <;> rw [h] <;> decide

theorem ParseAnnounce_ok_inv (p : List Byte) (ip : IP) (allowIPSpoofing : Bool)
    (req : AnnounceRequest) (h : ParseAnnounce ⟨p, ip⟩ allowIPSpoofing = .ok req) :
    98 ≤ p.length ∧ ∃ b event, p[83]? = some b ∧ b.toNat < 4 ∧
      eventIDs[b.toNat]? = some event ∧ ¬ (allowIPSpoofing = false ∧ ip = none) ∧
      handleOptionalParameters p = .ok none ∧
      req = announceOf p (if allowIPSpoofing then some ((p.drop 84).take 4) else ip)
        event none := by
  have h98 : 98 ≤ p.length := by
    by_contra hc
    have hlt : p.length < 98 := by omega
    simp [ParseAnnounce, hlt] at h
  refine ⟨h98, ?_⟩
  obtain ⟨b, hb⟩ : ∃ b, p[83]? = some b := ⟨p[83], List.getElem?_eq_getElem (by omega)⟩
  rw [ParseAnnounce_eq p ip allowIPSpoofing b h98 hb] at h
  by_cases hev : 4 ≤ b.toNat
  · simp [hev] at h
  · by_cases hip : allowIPSpoofing = false ∧ ip = none
    · simp [hev, hip] at h
    · rw [if_neg hev, if_neg hip] at h
      rcases handleOptionalParameters_cases p with hh | hh
      · cases he : eventIDs[b.toNat]? with
        | none => simp [hh, he] at h
        | some event =>
          simp only [hh, he] at h
          exact ⟨b, event, hb, by omega, he, hip, hh, (Except.ok.inj h).symm⟩
      · simp [hh] at h

/-- C1: for every request whose packet is shorter than 98 bytes, whatever the
flag `allowIPSpoofing` and the sender address (present or absent),
`ParseAnnounce` returns no request and the error `errMalformedPacket`. -/
theorem C1_ParseAnnounce_short_packet (r : Request) (allowIPSpoofing : Bool)
    (h : r.Packet.length < 98) :
    ParseAnnounce r allowIPSpoofing = .error (.client errMalformedPacket) := by
  simp [ParseAnnounce, h]

/-- Witness of C1: the first 97 bytes of a well-formed announce packet, with
spoofing allowed and a sender address present. -/
theorem C1_ParseAnnounce_short_packet_witness :
    ((samplePacket 2 []).take 97).length < 98 ∧
    ParseAnnounce ⟨(samplePacket 2 []).take 97, some [192, 168, 0, 9]⟩ true
      = .error (.client errMalformedPacket) :=
  ⟨by decide, C1_ParseAnnounce_short_packet ⟨(samplePacket 2 []).take 97, some [192, 168, 0, 9]⟩
    true (by decide)⟩

theorem bigEndian_four_ge (bs : List Byte) (b : Byte) (h4 : bs.length = 4)
    (h0 : bs[0]? = some b) : b.toNat * 2 ^ 24 ≤ bigEndian bs := by
  match bs, h4 with
  | [b0, b1, b2, b3], _ =>
    simp only [List.getElem?_cons_zero, Option.some.injEq] at h0
    subst h0
    simp only [bigEndian, List.foldl]
    omega

/-- C2: whenever `ParseAnnounce` succeeds on a packet `p`, the request has
InfoHash = p[16..36) and Peer.ID = p[36..56) (20 bytes each), Downloaded, Left
and Uploaded the big-endian values of p[56..64), p[64..72) and p[72..80),
NumWant the big-endian unsigned 32-bit value of p[92..96) (below 2^32, and at
least 2^31 when the top bit of p[92] is set) and Peer.Port the big-endian
value of p[96..98). -/
theorem C2_ParseAnnounce_fixed_fields (r : Request) (allowIPSpoofing : Bool)
    (req : AnnounceRequest) (h : ParseAnnounce r allowIPSpoofing = .ok req) :
    req.InfoHash = (r.Packet.drop 16).take 20 ∧ req.InfoHash.length = 20 ∧
    req.Peer.ID = (r.Packet.drop 36).take 20 ∧ req.Peer.ID.length = 20 ∧
    req.Downloaded = bigEndian ((r.Packet.drop 56).take 8) ∧ req.Downloaded < 2 ^ 64 ∧
    req.Left = bigEndian ((r.Packet.drop 64).take 8) ∧ req.Left < 2 ^ 64 ∧
    req.Uploaded = bigEndian ((r.Packet.drop 72).take 8) ∧ req.Uploaded < 2 ^ 64 ∧
    req.NumWant = bigEndian ((r.Packet.drop 92).take 4) ∧ req.NumWant < 2 ^ 32 ∧
    (∀ b, r.Packet[92]? = some b → 128 ≤ b.toNat → 2 ^ 31 ≤ req.NumWant) ∧
    req.Peer.Port = bigEndian ((r.Packet.drop 96).take 2) ∧ req.Peer.Port < 2 ^ 16 := by
  obtain ⟨p, ip⟩ := r
  obtain ⟨h98, b, event, _, _, _, _, _, hreq⟩ := ParseAnnounce_ok_inv p ip allowIPSpoofing req h
  subst hreq
  have l8 : ∀ a, a + 8 ≤ p.length → bigEndian ((p.drop a).take 8) < 2 ^ 64 := by
    intro a ha
    have := bigEndian_lt ((p.drop a).take 8)
    rw [length_drop_take p a 8 ha] at this
    simpa using this
  have l4 : bigEndian ((p.drop 92).take 4) < 2 ^ 32 := by
    have := bigEndian_lt ((p.drop 92).take 4)
    rw [length_drop_take p 92 4 (by omega)] at this
    simpa using this
  have l2 : bigEndian ((p.drop 96).take 2) < 2 ^ 16 := by
    have := bigEndian_lt ((p.drop 96).take 2)
    rw [length_drop_take p 96 2 (by omega)] at this
    simpa using this
  refine ⟨rfl, length_drop_take p 16 20 (by omega), rfl, length_drop_take p 36 20 (by omega),
    rfl, l8 56 (by omega), rfl, l8 64 (by omega), rfl, l8 72 (by omega), rfl, l4, ?_, rfl, l2⟩
  intro b92 hb92 htop
  have h0 : ((p.drop 92).take 4)[0]? = some b92 := by
    rw [List.getElem?_take_of_lt (by omega), List.getElem?_drop]
    simpa using hb92
  have := bigEndian_four_ge _ b92 (length_drop_take p 92 4 (by omega)) h0
  show 2 ^ 31 ≤ bigEndian ((p.drop 92).take 4)
  omega

/-- Witness of C2: a 98-byte packet whose num_want field is 0x80000005. -/
theorem C2_ParseAnnounce_fixed_fields_witness :
    ParseAnnounce ⟨samplePacket 2 [], none⟩ true
      = .ok ⟨.Started, List.replicate 20 0xAA, 0x80000005, 7, 256, 513,
          ⟨List.replicate 20 0xBB, some [10, 0, 0, 1], 8080⟩, none⟩ ∧
    (2 : Nat) ^ 31 ≤ 0x80000005 :=
  ⟨by decide,
   (C2_ParseAnnounce_fixed_fields ⟨samplePacket 2 [], none⟩ true
      ⟨.Started, List.replicate 20 0xAA, 0x80000005, 7, 256, 513,
        ⟨List.replicate 20 0xBB, some [10, 0, 0, 1], 8080⟩, none⟩
      (by decide)).2.2.2.2.2.2.2.2.2.2.2.2.1 0x80 (by decide) (by decide)⟩

/-- C3: whenever `ParseAnnounce` succeeds on a packet `p`, byte `p[83]` is
one of 0, 1, 2, 3 and alone decides the returned Event: 0 gives None,
1 gives Completed, 2 gives Started, 3 gives Stopped. -/
theorem C3_ParseAnnounce_event (r : Request) (allowIPSpoofing : Bool)
    (req : AnnounceRequest) (h : ParseAnnounce r allowIPSpoofing = .ok req) :
    ∃ b, r.Packet[83]? = some b ∧
      ((b = 0 ∧ req.Event = Event.None) ∨ (b = 1 ∧ req.Event = Event.Completed) ∨
       (b = 2 ∧ req.Event = Event.Started) ∨ (b = 3 ∧ req.Event = Event.Stopped)) := by
  obtain ⟨p, ip⟩ := r
  obtain ⟨_, b, event, hb, hlt, hev, _, _, hreq⟩ :=
    ParseAnnounce_ok_inv p ip allowIPSpoofing req h
  subst hreq
  refine ⟨b, hb, ?_⟩
  rcases (byte_lt_four_iff b).1 hlt with h0 | h0 | h0 | h0 <;> subst h0
  · have e : eventIDs[(0 : Byte).toNat]? = some Event.None := by decide
    rw [e] at hev
    exact Or.inl ⟨rfl, (Option.some.inj hev).symm⟩
  · have e : eventIDs[(1 : Byte).toNat]? = some Event.Completed := by decide
    rw [e] at hev
    exact Or.inr (Or.inl ⟨rfl, (Option.some.inj hev).symm⟩)
  · have e : eventIDs[(2 : Byte).toNat]? = some Event.Started := by decide
    rw [e] at hev
    exact Or.inr (Or.inr (Or.inl ⟨rfl, (Option.some.inj hev).symm⟩))
  · have e : eventIDs[(3 : Byte).toNat]? = some Event.Stopped := by decide
    rw [e] at hev
    exact Or.inr (Or.inr (Or.inr ⟨rfl, (Option.some.inj hev).symm⟩))

/-- Witness of C3: a packet with event byte 3 is parsed to `Stopped`. -/
theorem C3_ParseAnnounce_event_witness :
    ∃ b, (samplePacket 3 [])[83]? = some b ∧
      ((b = 0 ∧ Event.Stopped = Event.None) ∨ (b = 1 ∧ Event.Stopped = Event.Completed) ∨
       (b = 2 ∧ Event.Stopped = Event.Started) ∨ (b = 3 ∧ Event.Stopped = Event.Stopped)) :=
  C3_ParseAnnounce_event ⟨samplePacket 3 [], some [192, 168, 0, 9]⟩ false
    ⟨.Stopped, List.replicate 20 0xAA, 0x80000005, 7, 256, 513,
      ⟨List.replicate 20 0xBB, some [192, 168, 0, 9], 8080⟩, none⟩ (by decide)

/-- C4: for every packet of at least 98 bytes whose byte 83 is not one of
0, 1, 2, 3, `ParseAnnounce` fails with `errMalformedEvent`, whatever the flag,
the sender address (present or absent) and the bytes after the first 98. -/
theorem C4_ParseAnnounce_bad_event (p : List Byte) (ip : IP) (allowIPSpoofing : Bool)
    (b : Byte) (h98 : 98 ≤ p.length) (hb : p[83]? = some b)
    (hev : b ≠ 0 ∧ b ≠ 1 ∧ b ≠ 2 ∧ b ≠ 3) :
    ParseAnnounce ⟨p, ip⟩ allowIPSpoofing = .error (.client errMalformedEvent) := by
  have h4 : 4 ≤ b.toNat := by
    by_contra hc
    have := (byte_lt_four_iff b).1 (by omega)
    tauto
  rw [ParseAnnounce_eq p ip allowIPSpoofing b h98 hb, if_pos h4]

/-- Witness of C4: event byte 4, no sender address, spoofing not allowed, and
a trailer holding a URL-Data option that runs past the end of the packet. -/
theorem C4_ParseAnnounce_bad_event_witness :
    98 ≤ (samplePacket 4 [2, 200, 0]).length ∧
    ParseAnnounce ⟨samplePacket 4 [2, 200, 0], none⟩ false
      = .error (.client errMalformedEvent) :=
  ⟨by decide, C4_ParseAnnounce_bad_event (samplePacket 4 [2, 200, 0]) none false 4
    (by decide) (by decide) (by decide)⟩

theorem ParseAnnounce_short (p : List Byte) (ip : IP) (allowIPSpoofing : Bool)
    (h : p.length < 98) :
    ParseAnnounce ⟨p, ip⟩ allowIPSpoofing = .error (.client errMalformedPacket) := by
  simp [ParseAnnounce, h]

theorem drop_take_congr {α : Type} (p q : List α) (a n : Nat)
    (h : ∀ k, a ≤ k → k < a + n → p[k]? = q[k]?) :
    (p.drop a).take n = (q.drop a).take n := by
  apply List.ext_getElem?
  intro k
  by_cases hk : k < n
  · rw [List.getElem?_take_of_lt hk, List.getElem?_take_of_lt hk, List.getElem?_drop,
      List.getElem?_drop]
    exact h (a + k) (by omega) (by omega)
  · rw [List.getElem?_take_eq_none (by omega), List.getElem?_take_eq_none (by omega)]

theorem optionStep_next_gt (p : List Byte) (i j : Nat) (h : optionStep p i = .ok (.next j)) :
    i < j := by
  cases hx : index p i with
  | error e => simp [optionStep, hx, bind, Except.bind] at h
  | ok x =>
    cases hy : index p (i + 1) with
    | error e =>
      simp only [optionStep, hx, hy, bind, Except.bind, pure, Except.pure, throw, throwThe,
        MonadExceptOf.throw] at h
      split_ifs at h
      all_goals (try simp at h)
      all_goals (try omega)
    | ok y =>
      simp only [optionStep, hx, hy, bind, Except.bind, pure, Except.pure, throw, throwThe,
        MonadExceptOf.throw] at h
      split_ifs at h
      all_goals (try simp at h)
      all_goals (try omega)

theorem optionStep_congr (p q : List Byte) (i : Nat) (hlen : p.length = q.length)
    (h : ∀ k, 98 ≤ k → p[k]? = q[k]?) (hi : 98 ≤ i) : optionStep p i = optionStep q i := by
  simp only [optionStep, index, h i hi, h (i + 1) (by omega), hlen]

theorem optionLoop_congr (p q : List Byte) (hlen : p.length = q.length)
    (h : ∀ k, 98 ≤ k → p[k]? = q[k]?) :
    ∀ (fuel i : Nat), 98 ≤ i → optionLoop p fuel i = optionLoop q fuel i := by
  intro fuel
  induction fuel with
  | zero => intro i _; simp [optionLoop, hlen]
  | succ n ih =>
    intro i hi
    have hs := optionStep_congr p q i hlen h hi
    cases hq : optionStep q i with
    | error e => simp [optionLoop, hs, hq, hlen]
    | ok s =>
      cases s with
      | done => simp [optionLoop, hs, hq, hlen]
      | next j =>
        have hj := optionStep_next_gt q i j hq
        simp [optionLoop, hs, hq, hlen, ih j (by omega)]

theorem handleOptionalParameters_congr (p q : List Byte) (hlen : p.length = q.length)
    (h : ∀ k, 98 ≤ k → p[k]? = q[k]?) :
    handleOptionalParameters p = handleOptionalParameters q := by
  simp only [handleOptionalParameters, hlen, optionLoop_congr p q hlen h q.length 98 (le_refl _)]

theorem announceOf_congr (p q : List Byte) (ip : IP) (event : Event) (params : Params)
    (h : ∀ k, 16 ≤ k → k < 80 ∨ 92 ≤ k → k < 98 → p[k]? = q[k]?) :
    announceOf p ip event params = announceOf q ip event params := by
  simp only [announceOf,
    drop_take_congr p q 16 20 (fun k h1 h2 => h k (by omega) (by omega) (by omega)),
    drop_take_congr p q 36 20 (fun k h1 h2 => h k (by omega) (by omega) (by omega)),
    drop_take_congr p q 56 8 (fun k h1 h2 => h k (by omega) (by omega) (by omega)),
    drop_take_congr p q 64 8 (fun k h1 h2 => h k (by omega) (by omega) (by omega)),
    drop_take_congr p q 72 8 (fun k h1 h2 => h k (by omega) (by omega) (by omega)),
    drop_take_congr p q 92 4 (fun k h1 h2 => h k (by omega) (by omega) (by omega)),
    drop_take_congr p q 96 2 (fun k h1 h2 => h k (by omega) (by omega) (by omega))]

/-- C5: with `allowIPSpoofing` false and a sender address present, whenever
`ParseAnnounce` succeeds the returned Peer.IP is the sender address; and two
packets of the same length that differ only in bytes [84,88) have the same
outcome (the same error, or the same request, Peer.IP included). -/
theorem C5_ParseAnnounce_sender_ip :
    (∀ (p : List Byte) (sender : List Byte) (req : AnnounceRequest),
      ParseAnnounce ⟨p, some sender⟩ false = .ok req → req.Peer.IP = some sender) ∧
    (∀ (p q : List Byte) (sender : List Byte), p.length = q.length →
      (∀ k, k < 84 ∨ 88 ≤ k → p[k]? = q[k]?) →
      ParseAnnounce ⟨p, some sender⟩ false = ParseAnnounce ⟨q, some sender⟩ false) := by
  constructor
  · intro p sender req h
    obtain ⟨_, b, event, _, _, _, _, _, hreq⟩ := ParseAnnounce_ok_inv p (some sender) false req h
    subst hreq
    rfl
  · intro p q sender hlen h
    by_cases h98 : 98 ≤ p.length
    · obtain ⟨b, hb⟩ : ∃ b, p[83]? = some b := ⟨p[83], List.getElem?_eq_getElem (by omega)⟩
      have hb2 : q[83]? = some b := by rw [← h 83 (by omega)]; exact hb
      rw [ParseAnnounce_eq p (some sender) false b h98 hb,
        ParseAnnounce_eq q (some sender) false b (by omega) hb2,
        handleOptionalParameters_congr p q hlen (fun k hk => h k (by omega))]
      simp only [Bool.false_eq_true, if_false]
      have hc : ∀ event params, announceOf p (some sender) event params
          = announceOf q (some sender) event params :=
        fun event params => announceOf_congr p q (some sender) event params
          (fun k _ hk _ => h k (by omega))
      simp only [hc]
    · rw [ParseAnnounce_short p (some sender) false (by omega),
        ParseAnnounce_short q (some sender) false (by omega)]

/-- Witness of C5: the sender address 192.168.0.9 is returned for a packet
carrying 10.0.0.1 and for the same packet carrying 1.2.3.4. -/
theorem C5_ParseAnnounce_sender_ip_witness :
    (ParseAnnounce ⟨samplePacket 2 [], some [192, 168, 0, 9]⟩ false
      = .ok ⟨.Started, List.replicate 20 0xAA, 0x80000005, 7, 256, 513,
          ⟨List.replicate 20 0xBB, some [192, 168, 0, 9], 8080⟩, none⟩ ∧
     (some [192, 168, 0, 9] : IP) = some [192, 168, 0, 9]) ∧
    ParseAnnounce ⟨samplePacket 2 [], some [192, 168, 0, 9]⟩ false
      = ParseAnnounce ⟨samplePacketWith 2 [1, 2, 3, 4] [], some [192, 168, 0, 9]⟩ false :=
  ⟨⟨by decide, C5_ParseAnnounce_sender_ip.1 (samplePacket 2 []) [192, 168, 0, 9]
      ⟨.Started, List.replicate 20 0xAA, 0x80000005, 7, 256, 513,
        ⟨List.replicate 20 0xBB, some [192, 168, 0, 9], 8080⟩, none⟩ (by decide)⟩,
   C5_ParseAnnounce_sender_ip.2 (samplePacket 2 []) (samplePacketWith 2 [1, 2, 3, 4] [])
     [192, 168, 0, 9] (by decide)
     (fun k hk => by
       by_cases hk98 : k < 98
       · exact (by decide : ∀ k < 98, k < 84 ∨ 88 ≤ k →
            (samplePacket 2 [])[k]? = (samplePacketWith 2 [1, 2, 3, 4] [])[k]?) k hk98 hk
       · rw [List.getElem?_eq_none (by simpa [samplePacket, samplePacketWith] using hk98),
           List.getElem?_eq_none (by simpa [samplePacketWith] using hk98)])⟩

theorem ParseAnnounce_ne_malformedIP (p : List Byte) (ip : IP) (allowIPSpoofing : Bool)
    (h : ¬ (allowIPSpoofing = false ∧ ip = none)) :
    ParseAnnounce ⟨p, ip⟩ allowIPSpoofing ≠ .error (.client errMalformedIP) := by
  have hne1 : errMalformedEvent ≠ errMalformedIP := by decide
  have hne2 : errMalformedPacket ≠ errMalformedIP := by decide
  by_cases h98 : 98 ≤ p.length
  · obtain ⟨b, hb⟩ : ∃ b, p[83]? = some b := ⟨p[83], List.getElem?_eq_getElem (by omega)⟩
    rw [ParseAnnounce_eq p ip allowIPSpoofing b h98 hb]
    by_cases h1 : 4 ≤ b.toNat
    · rw [if_pos h1]
      simp [hne1]
    · rw [if_neg h1, if_neg h]
      rcases handleOptionalParameters_cases p with hh | hh <;>
        cases he : eventIDs[b.toNat]? <;> simp [hh, hne2]
  · rw [ParseAnnounce_short p ip allowIPSpoofing (by omega)]
    simp [hne2]

/-- C6: with `allowIPSpoofing` true, whenever `ParseAnnounce` succeeds the
returned Peer.IP is the four packet bytes [84,88); the outcome is the same
for every sender address, present or absent; and the error is never
`errMalformedIP`. -/
theorem C6_ParseAnnounce_spoofed_ip :
    (∀ (p : List Byte) (ip : IP) (req : AnnounceRequest),
      ParseAnnounce ⟨p, ip⟩ true = .ok req →
      req.Peer.IP = some ((p.drop 84).take 4) ∧ ((p.drop 84).take 4).length = 4) ∧
    (∀ (p : List Byte) (ip ip' : IP),
      ParseAnnounce ⟨p, ip⟩ true = ParseAnnounce ⟨p, ip'⟩ true) ∧
    (∀ (p : List Byte) (ip : IP),
      ParseAnnounce ⟨p, ip⟩ true ≠ .error (.client errMalformedIP)) := by
  refine ⟨?_, ?_, ?_⟩
  · intro p ip req h
    obtain ⟨h98, b, event, _, _, _, _, _, hreq⟩ := ParseAnnounce_ok_inv p ip true req h
    subst hreq
    exact ⟨rfl, length_drop_take p 84 4 (by omega)⟩
  · intro p ip ip'
    simp [ParseAnnounce]
  · intro p ip
    exact ParseAnnounce_ne_malformedIP p ip true (by simp)

/-- Witness of C6: with no sender address the packet's own bytes 10.0.0.1
are returned. -/
theorem C6_ParseAnnounce_spoofed_ip_witness :
    ParseAnnounce ⟨samplePacket 2 [], none⟩ true
      = .ok ⟨.Started, List.replicate 20 0xAA, 0x80000005, 7, 256, 513,
          ⟨List.replicate 20 0xBB, some [10, 0, 0, 1], 8080⟩, none⟩ ∧
    (some [10, 0, 0, 1] : IP) = some (((samplePacket 2 []).drop 84).take 4) :=
  ⟨by decide, (C6_ParseAnnounce_spoofed_ip.1 (samplePacket 2 []) none
      ⟨.Started, List.replicate 20 0xAA, 0x80000005, 7, 256, 513,
        ⟨List.replicate 20 0xBB, some [10, 0, 0, 1], 8080⟩, none⟩ (by decide)).1⟩

/-- C7: `ParseAnnounce` fails with `errMalformedIP` exactly when the packet has
at least 98 bytes, byte 83 is one of 0, 1, 2, 3, `allowIPSpoofing` is false
and the sender address is absent; the bytes after the first 98 play no part. -/
theorem C7_ParseAnnounce_malformed_ip (p : List Byte) (ip : IP) (allowIPSpoofing : Bool) :
    ParseAnnounce ⟨p, ip⟩ allowIPSpoofing = .error (.client errMalformedIP) ↔
      (98 ≤ p.length ∧ (∃ b, p[83]? = some b ∧ (b = 0 ∨ b = 1 ∨ b = 2 ∨ b = 3)) ∧
        allowIPSpoofing = false ∧ ip = none) := by
  constructor
  · intro h
    have hcond : allowIPSpoofing = false ∧ ip = none := by
      by_contra hc
      exact ParseAnnounce_ne_malformedIP p ip allowIPSpoofing hc h
    have h98 : 98 ≤ p.length := by
      by_contra hc
      rw [ParseAnnounce_short p ip allowIPSpoofing (by omega)] at h
      exact absurd (Failure.client.inj (Except.error.inj h)) (by decide)
    obtain ⟨b, hb⟩ : ∃ b, p[83]? = some b := ⟨p[83], List.getElem?_eq_getElem (by omega)⟩
    refine ⟨h98, ⟨b, hb, (byte_lt_four_iff b).1 ?_⟩, hcond⟩
    by_contra hc
    rw [ParseAnnounce_eq p ip allowIPSpoofing b h98 hb, if_pos (by omega)] at h
    exact absurd (Failure.client.inj (Except.error.inj h)) (by decide)
  · rintro ⟨h98, ⟨b, hb, hev⟩, hallow, hip⟩
    have hlt := (byte_lt_four_iff b).2 hev
    rw [ParseAnnounce_eq p ip allowIPSpoofing b h98 hb, if_neg (by omega),
      if_pos ⟨hallow, hip⟩]

/-- Witness of C7: a valid event byte, no sender address, spoofing not
allowed, and a trailer holding a URL-Data option that runs past the end. -/
theorem C7_ParseAnnounce_malformed_ip_witness :
    ParseAnnounce ⟨samplePacket 1 [2, 200, 0], none⟩ false
      = .error (.client errMalformedIP) :=
  (C7_ParseAnnounce_malformed_ip (samplePacket 1 [2, 200, 0]) none false).2
    ⟨by decide, ⟨1, by decide, by decide⟩, rfl, rfl⟩

theorem chunks_of_short (packet : List Byte) (h : packet.length < 20) : chunks packet = [] := by
  have : packet.length / 20 = 0 := by omega
  simp [chunks, this]

theorem chunks_of_long (packet : List Byte) (h : 20 ≤ packet.length) :
    chunks packet = packet.take 20 :: chunks (packet.drop 20) := by
  have hdiv : packet.length / 20 = (packet.length - 20) / 20 + 1 := by omega
  simp only [chunks, hdiv, List.length_drop, List.range_succ_eq_map, List.map_cons,
    List.map_map, Nat.mul_zero, List.drop_zero, List.drop_drop]
  congr 1
  apply List.map_congr_left
  intro i _
  simp only [Function.comp, Nat.succ_eq_add_one]
  congr 2
  omega

theorem scrapeLoop_eq : ∀ (fuel : Nat) (packet : List Byte) (infohashes : List InfoHash),
    packet.length / 20 ≤ fuel →
    scrapeLoop fuel packet infohashes = .ok (infohashes ++ chunks packet) := by
  intro fuel
  induction fuel with
  | zero =>
    intro packet acc hf
    have hlt : packet.length < 20 := by omega
    have hge : ¬ packet.length ≥ 20 := by omega
    simp [scrapeLoop, hge, chunks_of_short packet hlt]
  | succ n ih =>
    intro packet acc hf
    by_cases hge : packet.length ≥ 20
    · have h1 : slice packet 0 20 = .ok (packet.take 20) := by
        simp [slice, hge]
      have h2 : sliceFrom packet 20 = .ok (packet.drop 20) := by
        simp [sliceFrom, hge]
      have hrec := ih (packet.drop 20) (acc ++ [InfoHashFromBytes (packet.take 20)])
        (by simp only [List.length_drop]; omega)
      simp only [InfoHashFromBytes, List.append_assoc, List.singleton_append] at hrec
      rw [scrapeLoop, if_pos hge]
      simp only [h1, h2, chunks_of_long packet hge, InfoHashFromBytes]
      exact hrec
    · have hlt : packet.length < 20 := by omega
      simp [scrapeLoop, hge, chunks_of_short packet hlt]

theorem ParseScrape_short (p : List Byte) (ip : IP) (h : p.length < 36) :
    ParseScrape ⟨p, ip⟩ = .error (.client errMalformedPacket) := by
  simp [ParseScrape, h]

theorem ParseScrape_ragged (p : List Byte) (ip : IP) (h36 : 36 ≤ p.length)
    (h : (p.length - 16) % 20 ≠ 0) :
    ParseScrape ⟨p, ip⟩ = .error (.client errMalformedPacket) := by
  have h1 : ¬ p.length < 36 := by omega
  have h2 : sliceFrom p 16 = .ok (p.drop 16) := by
    simp [sliceFrom]; omega
  simp [ParseScrape, h1, h2, bind, Except.bind, h, throw, throwThe, MonadExceptOf.throw]

theorem ParseScrape_ok (p : List Byte) (ip : IP) (h36 : 36 ≤ p.length)
    (h : (p.length - 16) % 20 = 0) :
    ParseScrape ⟨p, ip⟩ = .ok { InfoHashes := chunks (p.drop 16) } := by
  have h1 : ¬ p.length < 36 := by omega
  have h2 : sliceFrom p 16 = .ok (p.drop 16) := by
    simp [sliceFrom]; omega
  have h3 := scrapeLoop_eq p.length (p.drop 16) []
    (by simp only [List.length_drop]; omega)
  simp [ParseScrape, h1, h2, bind, Except.bind, h, h3, pure, Except.pure]

theorem length_chunks (packet : List Byte) : (chunks packet).length = packet.length / 20 := by
  simp [chunks]

theorem getElem?_chunks (packet : List Byte) (i : Nat) (h : i < packet.length / 20) :
    (chunks packet)[i]? = some ((packet.drop (20 * i)).take 20) := by
  simp [chunks, List.getElem?_range h]

/-- C8: `ParseScrape` fails, with `errMalformedPacket`, exactly when the
packet is shorter than 36 bytes or (length - 16) is not a multiple of 20; it
succeeds exactly when length = 16 + 20 k with k >= 1; and it fails with no
other error. -/
theorem C8_ParseScrape_outcome (r : Request) :
    (ParseScrape r = .error (.client errMalformedPacket) ↔
      (r.Packet.length < 36 ∨ ((r.Packet.length : Int) - 16) % 20 ≠ 0)) ∧
    ((∃ req, ParseScrape r = .ok req) ↔ ∃ k, 1 ≤ k ∧ r.Packet.length = 16 + 20 * k) ∧
    (∀ e, ParseScrape r = .error e → e = .client errMalformedPacket) := by
  obtain ⟨p, ip⟩ := r
  show (ParseScrape ⟨p, ip⟩ = .error (.client errMalformedPacket) ↔
      (p.length < 36 ∨ ((p.length : Int) - 16) % 20 ≠ 0)) ∧
    ((∃ req, ParseScrape ⟨p, ip⟩ = .ok req) ↔ ∃ k, 1 ≤ k ∧ p.length = 16 + 20 * k) ∧
    (∀ e, ParseScrape ⟨p, ip⟩ = .error e → e = .client errMalformedPacket)
  by_cases h36 : p.length < 36
  · rw [ParseScrape_short p ip h36]
    refine ⟨⟨fun _ => Or.inl h36, fun _ => rfl⟩, ⟨?_, ?_⟩, ?_⟩
    · rintro ⟨req, h⟩; cases h
    · rintro ⟨k, hk, h⟩; omega
    · intro e h; exact (Except.error.inj h).symm
  · by_cases hmod : (p.length - 16) % 20 = 0
    · rw [ParseScrape_ok p ip (by omega) hmod]
      refine ⟨⟨fun h => ?_, fun h => ?_⟩, ⟨fun _ => ?_, fun _ => ⟨_, rfl⟩⟩, ?_⟩
      · cases h
      · exfalso
        rcases h with h | h
        · exact h36 h
        · omega
      · exact ⟨(p.length - 16) / 20, by omega, by omega⟩
      · intro e h
        cases h
    · rw [ParseScrape_ragged p ip (by omega) hmod]
      refine ⟨⟨fun _ => Or.inr (by omega), fun _ => rfl⟩, ⟨?_, ?_⟩, ?_⟩
      · rintro ⟨req, h⟩; cases h
      · rintro ⟨k, hk, h⟩; omega
      · intro e h; exact (Except.error.inj h).symm

/-- Witness of C8: a 37-byte packet (one byte too many) is rejected and a
76-byte packet is accepted. -/
theorem C8_ParseScrape_outcome_witness :
    ParseScrape ⟨sampleScrapePacket.take 37, none⟩ = .error (.client errMalformedPacket) ∧
    ∃ req, ParseScrape ⟨sampleScrapePacket, none⟩ = .ok req :=
  ⟨(C8_ParseScrape_outcome ⟨sampleScrapePacket.take 37, none⟩).1.2 (Or.inr (by decide)),
   (C8_ParseScrape_outcome ⟨sampleScrapePacket, none⟩).2.1.2 ⟨3, by decide, by decide⟩⟩

/-- C9: whenever `ParseScrape` succeeds on a packet `p`, InfoHashes has
exactly (len(p) - 16) / 20 entries, at least one, and entry `i` is the 20
bytes p[16+20i .. 36+20i), which lie inside the packet. -/
theorem C9_ParseScrape_infohashes (r : Request) (req : ScrapeRequest)
    (h : ParseScrape r = .ok req) :
    req.InfoHashes.length = (r.Packet.length - 16) / 20 ∧ 1 ≤ req.InfoHashes.length ∧
    ∀ i, i < req.InfoHashes.length →
      36 + 20 * i ≤ r.Packet.length ∧
      req.InfoHashes[i]? = some ((r.Packet.drop (16 + 20 * i)).take 20) ∧
      ((r.Packet.drop (16 + 20 * i)).take 20).length = 20 := by
  obtain ⟨p, ip⟩ := r
  have h36 : 36 ≤ p.length := by
    by_contra hc
    rw [ParseScrape_short p ip (by omega)] at h
    cases h
  have hmod : (p.length - 16) % 20 = 0 := by
    by_contra hc
    rw [ParseScrape_ragged p ip h36 hc] at h
    cases h
  rw [ParseScrape_ok p ip h36 hmod] at h
  have hreq : req = { InfoHashes := chunks (p.drop 16) } := (Except.ok.inj h).symm
  subst hreq
  have hlen : (chunks (p.drop 16)).length = (p.length - 16) / 20 := by
    rw [length_chunks, List.length_drop]
  refine ⟨hlen, ?_, ?_⟩
  · show 1 ≤ (chunks (p.drop 16)).length
    omega
  · intro i hi
    have hi2 : i < (p.length - 16) / 20 := by
      have : i < (chunks (p.drop 16)).length := hi
      omega
    have hin : 36 + 20 * i ≤ p.length := by
      show 36 + 20 * i ≤ p.length
      omega
    refine ⟨hin, ?_, length_drop_take p (16 + 20 * i) 20 (by omega)⟩
    show (chunks (p.drop 16))[i]? = some ((p.drop (16 + 20 * i)).take 20)
    rw [getElem?_chunks (p.drop 16) i (by rw [List.length_drop]; exact hi2), List.drop_drop]

/-- Witness of C9: the 76-byte sample packet yields its three info-hashes in
wire order. -/
theorem C9_ParseScrape_infohashes_witness :
    ParseScrape ⟨sampleScrapePacket, none⟩
      = .ok ⟨[List.replicate 20 1, List.replicate 20 2, List.replicate 20 3]⟩ ∧
    ([List.replicate 20 1, List.replicate 20 2, List.replicate 20 3] : List InfoHash).length
      = (sampleScrapePacket.length - 16) / 20 :=
  ⟨by decide, (C9_ParseScrape_infohashes ⟨sampleScrapePacket, none⟩
    ⟨[List.replicate 20 1, List.replicate 20 2, List.replicate 20 3]⟩ (by decide)).1⟩

theorem optionStep_urlData (p : List Byte) (i : Nat) (lengthByte : Byte)
    (hi : i < p.length - 1) (htag : p[i]? = some optionURLData)
    (hlen : p[i + 1]? = some lengthByte) :
    optionStep p i =
      if p.length < i + 2 + lengthByte.toNat then .error (.client errMalformedPacket)
      else .ok (.next (i + (1 + lengthByte.toNat))) := by
  have h1 : ¬ (i + 1 > p.length - 1) := by omega
  have h0 : ¬ (optionURLData = optionEndOfOptions) := by decide
  have h2 : ¬ (optionURLData = optionNOP) := by decide
  simp only [optionStep, index, htag, hlen, bind, Except.bind, pure, Except.pure, throw,
    throwThe, MonadExceptOf.throw, h0, h1, h2, if_false, if_true]
  by_cases hc : p.length < i + 2 + lengthByte.toNat
  · rw [if_pos hc, if_pos (by omega)]
  · rw [if_neg hc, if_neg (by omega)]

/-- C10 (the code at the failing input): a 99-byte announce packet whose one
trailer byte is the URL-Data tag 0x2, so that the length byte of the option
lies outside the packet.  The scan does not fail: the loop guard
`optionStartIndex < len(packet)-1` keeps the last byte from being read, and
`ParseAnnounce` returns a request. -/
theorem C10_urlData_tag_last_byte_accepted :
    (samplePacket 2 [2]).length = 99 ∧
    (samplePacket 2 [2])[98]? = some optionURLData ∧
    (samplePacket 2 [2])[99]? = none ∧
    handleOptionalParameters (samplePacket 2 [2]) = .ok none ∧
    ParseAnnounce ⟨samplePacket 2 [2], none⟩ true
      = .ok ⟨.Started, List.replicate 20 0xAA, 0x80000005, 7, 256, 513,
          ⟨List.replicate 20 0xBB, some [10, 0, 0, 1], 8080⟩, none⟩ := by
  decide

/-- C11 (the code at the failing inputs): a URL-Data option with tag at
cursor 98 and length byte L that passes the bounds check moves the cursor to
98 + 1 + L, not 98 + 2 + L.  With trailer 02 01 02 07 the payload byte at 100
is read as a tag and the packet is rejected; with trailer 02 00 02 C8 the
length byte at 99 is read as the tag EndOfOptions and the packet, whose second
option runs past the end, is accepted. -/
theorem C11_urlData_cursor_advance :
    optionStep (samplePacket 2 [2, 1, 2, 7]) 98 = .ok (.next 100) ∧
    ParseAnnounce ⟨samplePacket 2 [2, 1, 2, 7], none⟩ true
      = .error (.client errMalformedPacket) ∧
    optionStep (samplePacket 2 [2, 0, 2, 200]) 98 = .ok (.next 99) ∧
    optionStep (samplePacket 2 [2, 0, 2, 200]) 99 = .ok .done ∧
    optionStep (samplePacket 2 [2, 0, 2, 200]) 100 = .error (.client errMalformedPacket) ∧
    ParseAnnounce ⟨samplePacket 2 [2, 0, 2, 200], none⟩ true
      = .ok ⟨.Started, List.replicate 20 0xAA, 0x80000005, 7, 256, 513,
          ⟨List.replicate 20 0xBB, some [10, 0, 0, 1], 8080⟩, none⟩ := by
  decide

theorem optionStep_nop (p : List Byte) (i : Nat) (h : p[i]? = some optionNOP) :
    optionStep p i = .ok (.next (i + 1)) := by
  have h0 : ¬ (optionNOP = optionEndOfOptions) := by decide
  simp [optionStep, index, h, bind, Except.bind, pure, Except.pure, h0]

theorem optionStep_end (p : List Byte) (i : Nat) (h : p[i]? = some optionEndOfOptions) :
    optionStep p i = .ok .done := by
  simp [optionStep, index, h, bind, Except.bind, pure, Except.pure]

theorem optionStep_unknown (p : List Byte) (i : Nat) (b : Byte) (h : p[i]? = some b)
    (hb : 3 ≤ b.toNat) : optionStep p i = .ok .done := by
  have h0 : ¬ (b = optionEndOfOptions) := by
    intro hc; rw [hc] at hb; exact absurd hb (by decide)
  have h1 : ¬ (b = optionNOP) := by
    intro hc; rw [hc] at hb; exact absurd hb (by decide)
  have h2 : ¬ (b = optionURLData) := by
    intro hc; rw [hc] at hb; exact absurd hb (by decide)
  simp [optionStep, index, h, bind, Except.bind, pure, Except.pure, h0, h1, h2]

theorem optionLoop_nops (p : List Byte) : ∀ (k fuel i : Nat), k < fuel →
    (∀ m, m < k → p[i + m]? = some optionNOP) → p[i + k]? = some optionEndOfOptions →
    optionLoop p fuel i = .ok none := by
  intro k
  induction k with
  | zero =>
    intro fuel i hf _ hend
    obtain ⟨f, rfl⟩ : ∃ f, fuel = f + 1 := ⟨fuel - 1, by omega⟩
    have hs : optionStep p i = .ok .done := optionStep_end p i (by simpa using hend)
    rw [optionLoop]
    split_ifs
    · simp only [hs]
    · rfl
  | succ k ih =>
    intro fuel i hf hnop hend
    obtain ⟨f, rfl⟩ : ∃ f, fuel = f + 1 := ⟨fuel - 1, by omega⟩
    have hs : optionStep p i = .ok (.next (i + 1)) :=
      optionStep_nop p i (by simpa using hnop 0 (by omega))
    have hrec := ih f (i + 1) (by omega)
      (fun m hm => by have := hnop (m + 1) (by omega); rwa [show i + 1 + m = i + (m + 1) by omega])
      (by rwa [show i + 1 + k = i + (k + 1) by omega])
    rw [optionLoop]
    split_ifs
    · simp only [hs]
      exact hrec
    · rfl

theorem getElem?_trailer (header trailer : List Byte) (m : Nat) :
    (header ++ trailer)[header.length + m]? = trailer[m]? := by
  rw [List.getElem?_append_right (by omega)]
  congr 1
  omega

/-- C12: for every k, a trailer of k NOP bytes, an EndOfOptions byte and then
any bytes is scanned without error and gives the nil params; a NOP read at
the cursor moves it by exactly one byte and an EndOfOptions read at the
cursor ends the scan. -/
theorem C12_nops_then_end (header rest : List Byte) (k : Nat) (h : header.length = 98) :
    handleOptionalParameters
      (header ++ (List.replicate k optionNOP ++ optionEndOfOptions :: rest)) = .ok none ∧
    (∀ (p : List Byte) (i : Nat), p[i]? = some optionNOP →
      optionStep p i = .ok (.next (i + 1))) ∧
    (∀ (p : List Byte) (i : Nat), p[i]? = some optionEndOfOptions →
      optionStep p i = .ok .done) := by
  refine ⟨?_, optionStep_nop, optionStep_end⟩
  have hlen : ¬ (header ++ (List.replicate k optionNOP ++ optionEndOfOptions :: rest)).length
      ≤ 98 := by
    simp [h]
  rw [handleOptionalParameters, if_neg hlen]
  apply optionLoop_nops _ k _ 98 (by simp [h]; omega)
  · intro m hm
    rw [← h, getElem?_trailer, List.getElem?_append_left (by simpa using hm)]
    simp [List.getElem?_replicate, hm]
  · rw [← h, getElem?_trailer, List.getElem?_append_right (by simp)]
    simp

/-- Witness of C12: the two trailers 00 and 01 01 00 of the spec, and a
trailer with a malformed URL-Data option after the end marker. -/
theorem C12_nops_then_end_witness :
    handleOptionalParameters (samplePacket 2 [0]) = .ok none ∧
    handleOptionalParameters (samplePacket 2 [1, 1, 0]) = .ok none ∧
    handleOptionalParameters (samplePacket 2 [1, 1, 0, 2, 200, 0]) = .ok none :=
  ⟨(C12_nops_then_end (samplePacket 2 []) [] 0 (by decide)).1,
   (C12_nops_then_end (samplePacket 2 []) [] 2 (by decide)).1,
   (C12_nops_then_end (samplePacket 2 []) [2, 200, 0] 2 (by decide)).1⟩

/-- C13: a tag byte other than 0x0, 0x1 and 0x2 read at the cursor ends the
scan at once without error; so for every packet whose first trailer byte is 3
or greater the scan succeeds with the nil params, whatever bytes follow. -/
theorem C13_unknown_tag_stops (p : List Byte) (b : Byte) (h : p[98]? = some b)
    (hb : 3 ≤ b.toNat) :
    handleOptionalParameters p = .ok none ∧
    (∀ (q : List Byte) (i : Nat) (c : Byte), q[i]? = some c → 3 ≤ c.toNat →
      optionStep q i = .ok .done) := by
  refine ⟨?_, optionStep_unknown⟩
  unfold handleOptionalParameters
  split_ifs with hlen
  · rfl
  · obtain ⟨f, hf⟩ : ∃ f, p.length = f + 1 := ⟨p.length - 1, by omega⟩
    rw [hf, optionLoop]
    split_ifs
    · simp only [optionStep_unknown p 98 b h hb]
    · rfl

/-- Witness of C13: the unknown tag 0x03 followed by a URL-Data option that
runs past the end of the packet. -/
theorem C13_unknown_tag_stops_witness :
    handleOptionalParameters (samplePacket 2 [3, 2, 200, 0]) = .ok none :=
  (C13_unknown_tag_stops (samplePacket 2 [3, 2, 200, 0]) 3 (by decide) (by decide)).1

theorem eventIDs_lookup (b : Byte) (h : b.toNat < 4) :
    ∃ event, eventIDs[b.toNat]? = some event := by
  have hlt : b.toNat < eventIDs.length := by simpa [eventIDs] using h
  exact ⟨eventIDs[b.toNat], List.getElem?_eq_getElem hlt⟩

theorem handleOptionalParameters_no_trailer (p : List Byte) (h : p.length ≤ 98) :
    handleOptionalParameters p = .ok none := by
  simp [handleOptionalParameters, h]

/-- C14: for every packet of exactly 98 bytes whose byte 83 is one of
0, 1, 2, 3, with `allowIPSpoofing` true or a sender address present,
`ParseAnnounce` succeeds and the returned Params is nil; without a trailer the
option scan does nothing. -/
theorem C14_ParseAnnounce_no_trailer (p : List Byte) (ip : IP) (allowIPSpoofing : Bool)
    (b : Byte) (hlen : p.length = 98) (hb : p[83]? = some b)
    (hev : b = 0 ∨ b = 1 ∨ b = 2 ∨ b = 3) (hip : allowIPSpoofing = true ∨ ip ≠ none) :
    handleOptionalParameters p = .ok none ∧
    ∃ req, ParseAnnounce ⟨p, ip⟩ allowIPSpoofing = .ok req ∧ req.Params = none := by
  have hlt := (byte_lt_four_iff b).2 hev
  have hopt := handleOptionalParameters_no_trailer p (by omega)
  obtain ⟨event, he⟩ := eventIDs_lookup b hlt
  have hcond : ¬ (allowIPSpoofing = false ∧ ip = none) := by
    rintro ⟨h1, h2⟩
    rcases hip with h | h
    · rw [h1] at h; cases h
    · exact h h2
  refine ⟨hopt, ?_⟩
  rw [ParseAnnounce_eq p ip allowIPSpoofing b (by omega) hb, if_neg (by omega), if_neg hcond]
  simp only [hopt, he]
  exact ⟨_, rfl, rfl⟩

/-- Witness of C14: the 98-byte sample packet, no sender address, spoofing
allowed. -/
theorem C14_ParseAnnounce_no_trailer_witness :
    ∃ req, ParseAnnounce ⟨samplePacket 1 [], none⟩ true = .ok req ∧ req.Params = none :=
  (C14_ParseAnnounce_no_trailer (samplePacket 1 []) none true 1 (by decide) (by decide)
    (by decide) (Or.inl rfl)).2

/-- C15: no index or slice expression of `ParseAnnounce`,
`handleOptionalParameters` or `ParseScrape` is out of bounds and no loop runs
out of fuel: for every packet, sender address and flag each function returns
either a result or one of `errMalformedPacket`, `errMalformedEvent`,
`errMalformedIP`. -/
theorem C15_no_panic :
    (∀ (r : Request) (allowIPSpoofing : Bool),
      (∃ req, ParseAnnounce r allowIPSpoofing = .ok req) ∨
      ParseAnnounce r allowIPSpoofing = .error (.client errMalformedPacket) ∨
      ParseAnnounce r allowIPSpoofing = .error (.client errMalformedEvent) ∨
      ParseAnnounce r allowIPSpoofing = .error (.client errMalformedIP)) ∧
    (∀ (packet : List Byte),
      handleOptionalParameters packet = .ok none ∨
      handleOptionalParameters packet = .error (.client errMalformedPacket)) ∧
    (∀ (r : Request),
      (∃ req, ParseScrape r = .ok req) ∨
      ParseScrape r = .error (.client errMalformedPacket)) := by
  refine ⟨?_, handleOptionalParameters_cases, ?_⟩
  · rintro ⟨p, ip⟩ allowIPSpoofing
    by_cases h98 : 98 ≤ p.length
    · obtain ⟨b, hb⟩ : ∃ b, p[83]? = some b := ⟨p[83], List.getElem?_eq_getElem (by omega)⟩
      rw [ParseAnnounce_eq p ip allowIPSpoofing b h98 hb]
      by_cases h1 : 4 ≤ b.toNat
      · rw [if_pos h1]; exact Or.inr (Or.inr (Or.inl rfl))
      · rw [if_neg h1]
        by_cases h2 : allowIPSpoofing = false ∧ ip = none
        · rw [if_pos h2]; exact Or.inr (Or.inr (Or.inr rfl))
        · rw [if_neg h2]
          obtain ⟨event, he⟩ := eventIDs_lookup b (by omega)
          rcases handleOptionalParameters_cases p with hh | hh
          · left
            refine ⟨announceOf p
              (if allowIPSpoofing then some ((p.drop 84).take 4) else ip) event none, ?_⟩
            simp only [hh, he]
          · right
            left
            simp only [hh]
    · rw [ParseAnnounce_short p ip allowIPSpoofing (by omega)]
      exact Or.inr (Or.inl rfl)
  · rintro ⟨p, ip⟩
    by_cases h36 : p.length < 36
    · exact Or.inr (ParseScrape_short p ip h36)
    · by_cases hmod : (p.length - 16) % 20 = 0
      · exact Or.inl ⟨_, ParseScrape_ok p ip (by omega) hmod⟩
      · exact Or.inr (ParseScrape_ragged p ip (by omega) hmod)

/-- C16: an iteration of the option scan that does not return moves the
cursor forward by at least one byte (by exactly one for NOP, by 1 + L for a
URL-Data option with length byte L, also when L = 0) and leaves it at most at
len(packet) - 1; so the scan from cursor 98 ends within as many iterations as the
trailer has bytes. -/
theorem C16_option_scan_terminates :
    (∀ (p : List Byte) (i j : Nat), optionStep p i = .ok (.next j) → i < j) ∧
    (∀ (p : List Byte) (i j : Nat), i < p.length - 1 → optionStep p i = .ok (.next j) →
      j ≤ p.length - 1) ∧
    (∀ (p : List Byte) (i : Nat), p[i]? = some optionNOP →
      optionStep p i = .ok (.next (i + 1))) ∧
    (∀ (p : List Byte) (i : Nat) (lengthByte : Byte), i < p.length - 1 →
      p[i]? = some optionURLData → p[i + 1]? = some lengthByte →
      optionStep p i = .ok (.next (i + (1 + lengthByte.toNat))) ∨
      optionStep p i = .error (.client errMalformedPacket)) ∧
    (∀ (p : List Byte) (fuel : Nat), p.length - 98 ≤ fuel →
      optionLoop p fuel 98 = .ok none ∨
      optionLoop p fuel 98 = .error (.client errMalformedPacket)) := by
  refine ⟨optionStep_next_gt, ?_, optionStep_nop, ?_, ?_⟩
  · intro p i j hi h
    rcases optionStep_cases p i hi with hd | ⟨k, _, hk, hs⟩ | he
    · rw [hd] at h; cases h
    · rw [hs] at h
      cases h
      exact hk
    · rw [he] at h; cases h
  · intro p i lengthByte hi htag hlen
    rw [optionStep_urlData p i lengthByte hi htag hlen]
    split_ifs
    · exact Or.inr rfl
    · exact Or.inl rfl
  · intro p fuel hf
    exact optionLoop_cases p fuel 98 (by omega)

/-- Witness of C16: a URL-Data option of length 0 moves the cursor from 98 to
99, and the four-byte trailer is scanned within four iterations. -/
theorem C16_option_scan_terminates_witness :
    98 < 99 ∧
    (optionLoop (samplePacket 2 [2, 0, 1, 0]) 4 98 = .ok none ∨
     optionLoop (samplePacket 2 [2, 0, 1, 0]) 4 98 = .error (.client errMalformedPacket)) :=
  ⟨C16_option_scan_terminates.1 (samplePacket 2 [2, 0, 1, 0]) 98 99 (by decide),
   C16_option_scan_terminates.2.2.2.2 (samplePacket 2 [2, 0, 1, 0]) 4 (by decide)⟩

theorem ParseAnnounce_congr (p q : List Byte) (ip : IP) (allowIPSpoofing : Bool)
    (hlen : p.length = q.length)
    (h : ∀ k, (16 ≤ k ∧ k < 80) ∨ (83 ≤ k ∧ k < 88) ∨ 92 ≤ k → p[k]? = q[k]?) :
    ParseAnnounce ⟨p, ip⟩ allowIPSpoofing = ParseAnnounce ⟨q, ip⟩ allowIPSpoofing := by
  by_cases h98 : 98 ≤ p.length
  · obtain ⟨b, hb⟩ : ∃ b, p[83]? = some b := ⟨p[83], List.getElem?_eq_getElem (by omega)⟩
    have hb2 : q[83]? = some b := by rw [← h 83 (by omega)]; exact hb
    have hc : ∀ sender event params, announceOf p sender event params
        = announceOf q sender event params :=
      fun sender event params => announceOf_congr p q sender event params
        (fun k _ hk _ => h k (by omega))
    rw [ParseAnnounce_eq p ip allowIPSpoofing b h98 hb,
      ParseAnnounce_eq q ip allowIPSpoofing b (by omega) hb2,
      handleOptionalParameters_congr p q hlen (fun k hk => h k (by omega)),
      drop_take_congr p q 84 4 (fun k h1 h2 => h k (by omega))]
    simp only [hc]
  · rw [ParseAnnounce_short p ip allowIPSpoofing (by omega),
      ParseAnnounce_short q ip allowIPSpoofing (by omega)]

/-- C17: two packets of equal length that differ only in bytes [0,16)
(connection id, action, transaction id), [80,83) (the high-order event bytes)
and [88,92) (key) have the same outcome of `ParseAnnounce`, for the same
sender address and flag: the same error or the same request. -/
theorem C17_ParseAnnounce_unread_bytes (p q : List Byte) (ip : IP) (allowIPSpoofing : Bool)
    (hlen : p.length = q.length)
    (h : ∀ k, ¬ (k < 16) → ¬ (80 ≤ k ∧ k < 83) → ¬ (88 ≤ k ∧ k < 92) → p[k]? = q[k]?) :
    ParseAnnounce ⟨p, ip⟩ allowIPSpoofing = ParseAnnounce ⟨q, ip⟩ allowIPSpoofing :=
  ParseAnnounce_congr p q ip allowIPSpoofing hlen
    (fun k hk => h k (by omega) (by omega) (by omega))

/-- Witness of C17: the sample packet and the same packet with connection id
FF..FF, high-order event bytes 01 02 03 and key 07 07 07 07 are both parsed to
the same request. -/
theorem C17_ParseAnnounce_unread_bytes_witness :
    ParseAnnounce ⟨samplePacket 2 [1, 0], none⟩ true
      = ParseAnnounce ⟨samplePacketUnread 2 [1, 0], none⟩ true ∧
    ParseAnnounce ⟨samplePacketUnread 2 [1, 0], none⟩ true
      = .ok ⟨.Started, List.replicate 20 0xAA, 0x80000005, 7, 256, 513,
          ⟨List.replicate 20 0xBB, some [10, 0, 0, 1], 8080⟩, none⟩ ∧
    (samplePacketUnread 2 [1, 0])[80]? = some 1 :=
  ⟨C17_ParseAnnounce_unread_bytes (samplePacket 2 [1, 0]) (samplePacketUnread 2 [1, 0]) none true
    (by decide)
    (fun k h1 h2 h3 => by
      by_cases hk : k < 100
      · exact (by decide : ∀ k < 100, ¬ (k < 16) → ¬ (80 ≤ k ∧ k < 83) → ¬ (88 ≤ k ∧ k < 92) →
            (samplePacket 2 [1, 0])[k]? = (samplePacketUnread 2 [1, 0])[k]?) k hk h1 h2 h3
      · rw [List.getElem?_eq_none (by simpa [samplePacket, samplePacketWith] using hk),
          List.getElem?_eq_none (by simpa [samplePacketUnread] using hk)]),
   by decide, by decide⟩

/-- C18: whenever `ParseAnnounce` succeeds the returned Params is nil, whatever
the trailer holds; and whenever `handleOptionalParameters` returns without
error its params result is nil. -/
theorem C18_params_always_nil :
    (∀ (r : Request) (allowIPSpoofing : Bool) (req : AnnounceRequest),
      ParseAnnounce r allowIPSpoofing = .ok req → req.Params = none) ∧
    (∀ (packet : List Byte) (params : Params),
      handleOptionalParameters packet = .ok params → params = none) := by
  constructor
  · rintro ⟨p, ip⟩ allowIPSpoofing req h
    obtain ⟨_, b, event, _, _, _, _, _, hreq⟩ := ParseAnnounce_ok_inv p ip allowIPSpoofing req h
    subst hreq
    rfl
  · intro packet params h
    rcases handleOptionalParameters_cases packet with hh | hh
    · rw [hh] at h
      exact (Except.ok.inj h).symm
    · rw [hh] at h
      cases h

/-- Witness of C18: a trailer with a well-formed URL-Data option of three
payload bytes is accepted and the request carries no params. -/
theorem C18_params_always_nil_witness :
    (⟨.Started, List.replicate 20 0xAA, 0x80000005, 7, 256, 513,
        ⟨List.replicate 20 0xBB, some [10, 0, 0, 1], 8080⟩, none⟩ : AnnounceRequest).Params
      = none :=
  C18_params_always_nil.1 ⟨samplePacket 2 [2, 3, 0x61, 0x62, 0], none⟩ true
    ⟨.Started, List.replicate 20 0xAA, 0x80000005, 7, 256, 513,
      ⟨List.replicate 20 0xBB, some [10, 0, 0, 1], 8080⟩, none⟩ (by decide)

theorem optionLoop_at_last (p : List Byte) (fuel i : Nat) (h : p.length - 1 ≤ i) :
    optionLoop p fuel i = .ok none := by
  have hi : ¬ i < p.length - 1 := by omega
  cases fuel <;> simp [optionLoop, hi]

/-- C19: the option scan started at a cursor on the final byte of the packet,
or past it, returns at once without reading a tag; so for every packet of
exactly 99 bytes `ParseAnnounce` returns what it returns on the first 98 bytes
of the packet, for the same sender address and flag. -/
theorem C19_final_byte_not_a_tag :
    (∀ (p : List Byte) (fuel i : Nat), p.length - 1 ≤ i → optionLoop p fuel i = .ok none) ∧
    (∀ (p : List Byte) (ip : IP) (allowIPSpoofing : Bool), p.length = 99 →
      ParseAnnounce ⟨p, ip⟩ allowIPSpoofing = ParseAnnounce ⟨p.take 98, ip⟩ allowIPSpoofing) := by
  refine ⟨optionLoop_at_last, ?_⟩
  intro p ip allowIPSpoofing hlen
  have hlen2 : (p.take 98).length = 98 := by simp [hlen]
  obtain ⟨b, hb⟩ : ∃ b, p[83]? = some b := ⟨p[83], List.getElem?_eq_getElem (by omega)⟩
  have hget : ∀ k, k < 98 → p[k]? = (p.take 98)[k]? := fun k hk =>
    (List.getElem?_take_of_lt hk).symm
  have hb2 : (p.take 98)[83]? = some b := by rw [← hget 83 (by omega)]; exact hb
  have h1 : handleOptionalParameters p = .ok none := by
    rw [handleOptionalParameters, if_neg (by omega)]
    exact optionLoop_at_last p p.length 98 (by omega)
  have h2 : handleOptionalParameters (p.take 98) = .ok none :=
    handleOptionalParameters_no_trailer (p.take 98) (by omega)
  have hc : ∀ sender event params, announceOf p sender event params
      = announceOf (p.take 98) sender event params :=
    fun sender event params => announceOf_congr p (p.take 98) sender event params
      (fun k _ _ hk => hget k hk)
  rw [ParseAnnounce_eq p ip allowIPSpoofing b (by omega) hb,
    ParseAnnounce_eq (p.take 98) ip allowIPSpoofing b (by omega) hb2, h1, h2,
    drop_take_congr p (p.take 98) 84 4 (fun k _ hk => hget k (by omega))]
  simp only [hc]

/-- Witness of C19: the 99-byte packet whose one trailer byte is the tag 0x02
is parsed as the 98-byte packet without it. -/
theorem C19_final_byte_not_a_tag_witness :
    ParseAnnounce ⟨samplePacket 2 [2], none⟩ true
      = ParseAnnounce ⟨(samplePacket 2 [2]).take 98, none⟩ true :=
  C19_final_byte_not_a_tag.2 (samplePacket 2 [2]) none true (by decide)

theorem sorted_getElem?_le {α : Type} [LinearOrder α] (a : List α)
    (hs : a.Sorted (· ≤ ·)) (k h : Nat) (y z : α) (hk : k ≤ h)
    (hy : a[k]? = some y) (hz : a[h]? = some z) : y ≤ z := by
  rcases Nat.eq_or_lt_of_le hk with heq | hlt
  · subst heq
    rw [hy] at hz
    exact le_of_eq (Option.some.inj hz)
  · obtain ⟨hk', rfl⟩ := List.getElem?_eq_some.1 hy
    obtain ⟨hh', rfl⟩ := List.getElem?_eq_some.1 hz
    exact List.pairwise_iff_getElem.1 hs k h hk' hh' hlt

theorem searchLoop_spec {α : Type} [LinearOrder α] (a : List α) (x : α)
    (hs : a.Sorted (· ≤ ·)) :
    ∀ (fuel i j : Nat), i ≤ j → j ≤ a.length → j - i ≤ fuel →
      (∀ k y, k < i → a[k]? = some y → y < x) →
      (∀ k y, j ≤ k → a[k]? = some y → x ≤ y) →
      ∃ r, searchLoop a x fuel i j = .ok r ∧ r ≤ a.length ∧
        (∀ k y, k < r → a[k]? = some y → y < x) ∧
        (∀ k y, r ≤ k → a[k]? = some y → x ≤ y) := by
  intro fuel
  induction fuel with
  | zero =>
    intro i j hij hj hf hlo hhi
    have heq : i = j := by omega
    subst heq
    exact ⟨i, by simp [searchLoop], hj, hlo, hhi⟩
  | succ f ih =>
    intro i j hij hj hf hlo hhi
    by_cases hlt : i < j
    · have hh : (i + j) / 2 < a.length := by omega
      have hah : a[(i + j) / 2]? = some a[(i + j) / 2] := List.getElem?_eq_getElem hh
      by_cases hc : a[(i + j) / 2] ≥ x
      · obtain ⟨r, hr, hr2⟩ := ih i ((i + j) / 2) (by omega) (by omega) (by omega) hlo
          (fun k y hk hy => le_trans hc (sorted_getElem?_le a hs _ k _ y hk hah hy))
        refine ⟨r, ?_, hr2⟩
        rw [searchLoop, if_pos hlt]
        simp only [index, hah, hc, not_true_eq_false, if_false]
        exact hr
      · obtain ⟨r, hr, hr2⟩ := ih ((i + j) / 2 + 1) j (by omega) hj (by omega)
          (fun k y hk hy => lt_of_le_of_lt
            (sorted_getElem?_le a hs k _ y _ (by omega) hy hah) (not_le.1 hc))
          hhi
        refine ⟨r, ?_, hr2⟩
        rw [searchLoop, if_pos hlt]
        simp only [index, hah, hc, not_false_eq_true, if_true]
        exact hr
    · have heq : i = j := by omega
      subst heq
      exact ⟨i, by simp [searchLoop], hj, hlo, hhi⟩

theorem SearchFloat64s_spec {α : Type} [LinearOrder α] (a : List α) (x : α)
    (hs : a.Sorted (· ≤ ·)) :
    ∃ r, SearchFloat64s a x = .ok r ∧ r ≤ a.length ∧
      (∀ y ∈ a.take r, y < x) ∧ (∀ y ∈ a.drop r, x ≤ y) := by
  obtain ⟨r, hr, hlen, hlo, hhi⟩ := searchLoop_spec a x hs a.length 0 a.length (by omega)
    (le_refl _) (by omega) (fun k y hk _ => absurd hk (by omega))
    (fun k y hk hy => by
      rw [List.getElem?_eq_none (by omega)] at hy
      cases hy)
  refine ⟨r, hr, hlen, ?_, ?_⟩
  · intro y hy
    obtain ⟨k, hk⟩ := List.mem_iff_getElem?.1 hy
    by_cases hkr : k < r
    · rw [List.getElem?_take_of_lt hkr] at hk
      exact hlo k y hkr hk
    · rw [List.getElem?_take_eq_none (by omega)] at hk
      cases hk
  · intro y hy
    obtain ⟨k, hk⟩ := List.mem_iff_getElem?.1 hy
    rw [List.getElem?_drop] at hk
    exact hhi (r + k) y (by omega) hk

theorem sorted_insert {α : Type} [LinearOrder α] (t rest : List α) (r : Nat) (s : α)
    (hs : t.Sorted (· ≤ ·)) (hlo : ∀ y ∈ t.take r, y < s) (hhi : ∀ y ∈ t.drop r, s ≤ y)
    (hsub : rest.Sublist (t.drop r)) :
    (t.take r ++ s :: rest).Sorted (· ≤ ·) := by
  have h1 : (t.take r).Sorted (· ≤ ·) := List.Pairwise.sublist (List.take_sublist r t) hs
  have h2 : rest.Sorted (· ≤ ·) :=
    List.Pairwise.sublist (hsub.trans (List.drop_sublist r t)) hs
  have h3 : ∀ y ∈ rest, s ≤ y := fun y hy => hhi y (hsub.subset hy)
  refine List.pairwise_append.2 ⟨h1, List.pairwise_cons.2 ⟨h3, h2⟩, ?_⟩
  intro y hy z hz
  rcases List.mem_cons.1 hz with hz | hz
  · rw [hz]
    exact le_of_lt (hlo y hy)
  · exact le_trans (le_of_lt (hlo y hy)) (h3 z hz)

theorem insert_drop_last_aux {α : Type} (front back : List α) (x s : α) :
    assign (copyAt (front ++ x :: back) (front.length + 1) (x :: back)) front.length s
      = .ok (front ++ s :: (x :: back).dropLast) := by
  have hn : min ((front ++ x :: back).length - (front.length + 1)) (x :: back).length
      = back.length := by
    simp only [List.length_append, List.length_cons]
    omega
  have h1 : (front ++ x :: back).take (front.length + 1) = front ++ [x] := by
    rw [List.take_append_eq_append_take]
    simp
  have h2 : (front ++ x :: back).drop (front.length + 1 + back.length) = [] := by
    apply List.drop_eq_nil_of_le
    simp
    omega
  have h3 : (x :: back).take back.length = (x :: back).dropLast := by
    rw [List.dropLast_eq_take]
    simp
  have hcopy : copyAt (front ++ x :: back) (front.length + 1) (x :: back)
      = front ++ x :: (x :: back).dropLast := by
    simp only [copyAt, hn, h1, h2, h3, List.append_nil, List.append_assoc,
      List.singleton_append]
  have hlen : front.length < (front ++ x :: (x :: back).dropLast).length := by
    simp
  rw [hcopy, assign, if_pos hlen]
  congr 1
  rw [List.set_append_right _ _ (le_refl _)]
  simp

theorem insert_drop_last {α : Type} (l : List α) (idx : Nat) (s : α) (h : idx < l.length) :
    assign (copyAt l (idx + 1) (l.drop idx)) idx s
      = .ok (l.take idx ++ s :: (l.drop idx).dropLast) := by
  have hd : l.drop idx = l[idx] :: l.drop (idx + 1) := List.drop_eq_getElem_cons h
  have hl : l = l.take idx ++ l[idx] :: l.drop (idx + 1) := by
    rw [← hd, List.take_append_drop]
  have hf : (l.take idx).length = idx := by
    rw [List.length_take]; omega
  have := insert_drop_last_aux (l.take idx) (l.drop (idx + 1)) l[idx] s
  rw [← hl, hf, ← hd] at this
  exact this

theorem drop_first_insert_aux {α : Type} (first : α) (front back : List α) (s : α) :
    assign (copyAt (first :: (front ++ back)) 0 front) front.length s
      = .ok (front ++ s :: back) := by
  have hn : min ((first :: (front ++ back)).length - 0) front.length = front.length := by
    simp
    omega
  have hcopy : copyAt (first :: (front ++ back)) 0 front
      = front ++ (first :: (front ++ back)).drop front.length := by
    simp only [copyAt, hn, List.take_zero, List.nil_append, Nat.zero_add, List.take_length]
  have hd : ∃ y, (first :: (front ++ back)).drop front.length = y :: back := by
    have hlt : front.length < (first :: (front ++ back)).length := by simp; omega
    refine ⟨(first :: (front ++ back))[front.length], ?_⟩
    rw [List.drop_eq_getElem_cons hlt]
    simp
  obtain ⟨y, hy⟩ := hd
  have hlen : front.length < (front ++ y :: back).length := by
    simp
  rw [hcopy, hy, assign, if_pos hlen]
  congr 1
  rw [List.set_append_right _ _ (le_refl _)]
  simp

theorem drop_first_insert {α : Type} (l : List α) (idx : Nat) (s : α)
    (h : idx + 1 ≤ l.length) :
    assign (copyAt l 0 ((l.drop 1).take idx)) idx s
      = .ok ((l.drop 1).take idx ++ s :: (l.drop 1).drop idx) := by
  match l, h with
  | first :: t, h =>
    have hf : (t.take idx).length = idx := by
      rw [List.length_take]
      simp only [List.length_cons] at h
      omega
    have := drop_first_insert_aux first (t.take idx) (t.drop idx) s
    rw [List.take_append_drop, hf] at this
    simpa using this

theorem sliceFrom_eq_ok {α : Type} (s : List α) (a : Nat) (h : a ≤ s.length) :
    sliceFrom s a = .ok (s.drop a) := by
  simp [sliceFrom, h]

theorem updateValues_fill {F α : Type} [LinearOrder α] (ops : Float64Ops F)
    (p : Percentile F α) (sample z : α) (spare : List α) (idx : Nat)
    (hcond : ¬ (wrapInt64 (p.samples + 1) > (p.cap : Int))) (hspare : p.spare = z :: spare)
    (hidx : SearchFloat64s p.values sample = .ok idx) (hle : idx ≤ p.values.length) :
    updateValues ops p sample = .ok
      { p with samples := wrapInt64 (p.samples + 1),
               values := p.values.take idx ++ sample :: p.values.drop idx, spare := spare } := by
  have hlen : (p.values ++ [z]).length = p.values.length + 1 := by simp
  have h1 := sliceFrom_eq_ok (p.values ++ [z]) (idx + 1) (by omega)
  have h2 := sliceFrom_eq_ok (p.values ++ [z]) idx (by omega)
  have h3 := insert_drop_last (p.values ++ [z]) idx sample (by omega)
  have h4 : (p.values ++ [z]).take idx = p.values.take idx := by
    rw [List.take_append_of_le_length hle]
  have h5 : ((p.values ++ [z]).drop idx).dropLast = p.values.drop idx := by
    rw [List.drop_append_of_le_length hle, List.dropLast_concat]
  rw [h4, h5] at h3
  simp only [updateValues, hcond, if_false, hidx, hspare, h1, h2, h3, bind, Except.bind, pure,
    Except.pure]

theorem updateValues_full {F α : Type} [LinearOrder α] (ops : Float64Ops F)
    (p : Percentile F α) (sample : α) (idx : Nat)
    (hcond : ¬ (wrapInt64 (p.samples + 1) > (p.cap : Int))) (hspare : p.spare = [])
    (hidx : SearchFloat64s p.values sample = .ok idx) :
    updateValues ops p sample = .error .indexOutOfRange := by
  simp only [updateValues, hcond, if_false, hidx, hspare, bind, Except.bind, throw, throwThe,
    MonadExceptOf.throw]

theorem updateValues_dropSmallest {F α : Type} [LinearOrder α] (ops : Float64Ops F)
    (p : Percentile F α) (sample first : α) (idx : Nat)
    (hcond : wrapInt64 (p.samples + 1) > (p.cap : Int)) (hfirst : p.values[0]? = some first)
    (hgt : sample > first) (hoff : computedOffset ops p > p.offset)
    (hidx : SearchFloat64s (p.values.drop 1) sample = .ok idx)
    (hle : idx + 1 ≤ p.values.length) :
    updateValues ops p sample = .ok
      { p with samples := wrapInt64 (p.samples + 1), offset := wrapInt64 (p.offset + 1),
               values := (p.values.drop 1).take idx ++ sample :: (p.values.drop 1).drop idx } := by
  have h1 := sliceFrom_eq_ok p.values 1 (by omega)
  have h2 : slice p.values 1 (idx + 1) = .ok ((p.values.drop 1).take idx) := by
    rw [slice_eq_ok p.values 1 (idx + 1) (by omega) hle, Nat.add_sub_cancel]
  have h3 := drop_first_insert p.values idx sample hle
  simp only [computedOffset] at hoff
  simp only [updateValues, hcond, if_true, index, hfirst, hgt, hoff, h1, hidx, h2, h3, bind,
    Except.bind, pure, Except.pure]

theorem updateValues_insert {F α : Type} [LinearOrder α] (ops : Float64Ops F)
    (p : Percentile F α) (sample first last : α) (idx : Nat)
    (hcond : wrapInt64 (p.samples + 1) > (p.cap : Int)) (hfirst : p.values[0]? = some first)
    (hgt : sample > first) (hoff : ¬ (computedOffset ops p > p.offset))
    (hlast : p.values[p.values.length - 1]? = some last) (hlt : sample < last)
    (hidx : SearchFloat64s p.values sample = .ok idx) (hle : idx < p.values.length) :
    updateValues ops p sample = .ok
      { p with samples := wrapInt64 (p.samples + 1),
               values := p.values.take idx ++ sample :: (p.values.drop idx).dropLast } := by
  have h1 := sliceFrom_eq_ok p.values (idx + 1) (by omega)
  have h2 := sliceFrom_eq_ok p.values idx (by omega)
  have h3 := insert_drop_last p.values idx sample hle
  simp only [computedOffset] at hoff
  simp only [updateValues, hcond, if_true, index, hfirst, hgt, hoff, if_false, hlast, hlt, hidx,
    h1, h2, h3, bind, Except.bind, pure, Except.pure]

theorem updateValues_discardHigh {F α : Type} [LinearOrder α] (ops : Float64Ops F)
    (p : Percentile F α) (sample first last : α)
    (hcond : wrapInt64 (p.samples + 1) > (p.cap : Int)) (hfirst : p.values[0]? = some first)
    (hgt : sample > first) (hoff : ¬ (computedOffset ops p > p.offset))
    (hlast : p.values[p.values.length - 1]? = some last) (hlt : ¬ (sample < last)) :
    updateValues ops p sample = .ok { p with samples := wrapInt64 (p.samples + 1) } := by
  simp only [computedOffset] at hoff
  simp only [updateValues, hcond, if_true, index, hfirst, hgt, hoff, if_false, hlast, hlt, bind,
    Except.bind, pure, Except.pure]

theorem updateValues_discardLow {F α : Type} [LinearOrder α] (ops : Float64Ops F)
    (p : Percentile F α) (sample first : α)
    (hcond : wrapInt64 (p.samples + 1) > (p.cap : Int)) (hfirst : p.values[0]? = some first)
    (hgt : ¬ (sample > first)) (hoff : computedOffset ops p > p.offset) :
    updateValues ops p sample = .ok
      { p with samples := wrapInt64 (p.samples + 1), offset := wrapInt64 (p.offset + 1) } := by
  simp only [computedOffset] at hoff
  simp only [updateValues, hcond, if_true, index, hfirst, hgt, hoff, if_false, bind,
    Except.bind, pure, Except.pure]

theorem updateValues_front {F α : Type} [LinearOrder α] (ops : Float64Ops F)
    (p : Percentile F α) (sample first : α)
    (hcond : wrapInt64 (p.samples + 1) > (p.cap : Int)) (hfirst : p.values[0]? = some first)
    (hgt : ¬ (sample > first)) (hoff : ¬ (computedOffset ops p > p.offset)) :
    updateValues ops p sample = .ok
      { p with samples := wrapInt64 (p.samples + 1),
               values := sample :: p.values.dropLast } := by
  have hpos : 0 < p.values.length := (List.getElem?_eq_some.1 hfirst).1
  have h1 := sliceFrom_eq_ok p.values 1 (by omega)
  have h3 := insert_drop_last p.values 0 sample hpos
  simp only [List.drop_zero, List.take_zero, List.nil_append, Nat.zero_add] at h3
  simp only [computedOffset] at hoff
  simp only [updateValues, hcond, if_true, index, hfirst, hgt, hoff, if_false, h1, h3, bind,
    Except.bind, pure, Except.pure]

theorem wrapInt64_of_lt (n : Nat) (h : n < 9223372036854775808) : wrapInt64 (n : Int) = n := by
  unfold wrapInt64
  omega

theorem wrapInt64_overflow : wrapInt64 9223372036854775808 = -9223372036854775808 := by
  decide

theorem NewPercentile_inv {F α : Type} [LinearOrder α] [Zero α] (percentile : F) (w : Nat) :
    PercentileInv w 0 (NewPercentile percentile w : Percentile F α) := by
  simp [PercentileInv, NewPercentile, Percentile.cap]

theorem Percentile.index_le_last {F α : Type} (ops : Float64Ops F) (p : Percentile F α) :
    p.index ops ≤ (p.values.length : Int) - 1 := by
  unfold Percentile.index
  simp only []
  split_ifs with h
  · exact le_refl _
  · omega

theorem updateValues_inv {F α : Type} [LinearOrder α] (ops : Float64Ops F) (w n : Nat)
    (p : Percentile F α) (sample : α) (hw : 1 ≤ w) (hw63 : w < 9223372036854775808)
    (hinv : PercentileInv w n p) :
    (n + 1 < 9223372036854775808 →
      ∃ q, updateValues ops p sample = .ok q ∧ PercentileInv w (n + 1) q) ∧
    (¬ (n + 1 < 9223372036854775808) →
      updateValues ops p sample = .error .indexOutOfRange) := by
  obtain ⟨hn, hsamples, hsorted, hlen, hcap⟩ := hinv
  have hcapl : p.values.length + p.spare.length = w := hcap
  constructor
  · intro hn1
    have hs1 : wrapInt64 (p.samples + 1) = ((n + 1 : Nat) : Int) := by
      rw [hsamples, ← wrapInt64_of_lt (n + 1) hn1]
      simp
    by_cases hcond : wrapInt64 (p.samples + 1) > (p.cap : Int)
    · have hnw : w ≤ n := by rw [hs1, hcap] at hcond; omega
      have hlenw : p.values.length = w := by rw [hlen]; omega
      have hpos : 0 < p.values.length := by omega
      have hfirst : p.values[0]? = some p.values[0] := List.getElem?_eq_getElem hpos
      by_cases hgt : sample > p.values[0]
      · by_cases hoff : computedOffset ops p > p.offset
        · have htail : (p.values.drop 1).Sorted (· ≤ ·) :=
            List.Pairwise.sublist (List.drop_sublist 1 p.values) hsorted
          obtain ⟨idx, hidx, hle, hlo, hhi⟩ :=
            SearchFloat64s_spec (p.values.drop 1) sample htail
          rw [List.length_drop] at hle
          refine ⟨_, updateValues_dropSmallest ops p sample _ idx hcond hfirst hgt hoff hidx
            (by omega), hn1, hs1, ?_, ?_, ?_⟩
          · exact sorted_insert (p.values.drop 1) _ idx sample htail hlo hhi
              (List.Sublist.refl _)
          · show ((p.values.drop 1).take idx ++ sample :: (p.values.drop 1).drop idx).length
              = min (n + 1) w
            simp only [List.length_append, List.length_take, List.length_cons, List.length_drop]
            omega
          · show ((p.values.drop 1).take idx ++ sample :: (p.values.drop 1).drop idx).length
              + p.spare.length = w
            simp only [List.length_append, List.length_take, List.length_cons, List.length_drop]
            omega
        · have hlast : p.values[p.values.length - 1]? = some p.values[p.values.length - 1] :=
            List.getElem?_eq_getElem (by omega)
          by_cases hlt : sample < p.values[p.values.length - 1]
          · obtain ⟨idx, hidx, hle, hlo, hhi⟩ := SearchFloat64s_spec p.values sample hsorted
            have hidxlt : idx < p.values.length := by
              by_contra hc
              have hall : p.values.take idx = p.values := List.take_of_length_le (by omega)
              have hmem : p.values[p.values.length - 1] ∈ p.values.take idx := by
                rw [hall]
                exact List.getElem_mem _
              exact absurd (hlo _ hmem) (not_lt.2 (le_of_lt hlt))
            refine ⟨_, updateValues_insert ops p sample _ _ idx hcond hfirst hgt hoff hlast hlt
              hidx hidxlt, hn1, hs1, ?_, ?_, ?_⟩
            · exact sorted_insert p.values _ idx sample hsorted hlo hhi
                (List.dropLast_sublist _)
            · show (p.values.take idx ++ sample :: (p.values.drop idx).dropLast).length
                = min (n + 1) w
              simp only [List.length_append, List.length_take, List.length_cons,
                List.length_dropLast, List.length_drop]
              omega
            · show (p.values.take idx ++ sample :: (p.values.drop idx).dropLast).length
                + p.spare.length = w
              simp only [List.length_append, List.length_take, List.length_cons,
                List.length_dropLast, List.length_drop]
              omega
          · refine ⟨_, updateValues_discardHigh ops p sample _ _ hcond hfirst hgt hoff hlast
              hlt, hn1, hs1, hsorted, ?_, hcap⟩
            show p.values.length = min (n + 1) w
            omega
      · by_cases hoff : computedOffset ops p > p.offset
        · refine ⟨_, updateValues_discardLow ops p sample _ hcond hfirst hgt hoff,
            hn1, hs1, hsorted, ?_, hcap⟩
          show p.values.length = min (n + 1) w
          omega
        · refine ⟨_, updateValues_front ops p sample _ hcond hfirst hgt hoff,
            hn1, hs1, ?_, ?_, ?_⟩
          · have hle : ∀ y ∈ p.values, sample ≤ y := by
              intro y hy
              obtain ⟨k, hk⟩ := List.mem_iff_getElem?.1 hy
              exact le_trans (not_lt.1 hgt)
                (sorted_getElem?_le p.values hsorted 0 k _ y (Nat.zero_le k) hfirst hk)
            have := sorted_insert p.values p.values.dropLast 0 sample hsorted
              (by simp) (by simpa using hle) (by simpa using List.dropLast_sublist p.values)
            simpa using this
          · show (sample :: p.values.dropLast).length = min (n + 1) w
            simp only [List.length_cons, List.length_dropLast]
            omega
          · show (sample :: p.values.dropLast).length + p.spare.length = w
            simp only [List.length_cons, List.length_dropLast]
            omega
    · have hnw : n < w := by rw [hs1, hcap] at hcond; omega
      have hlenn : p.values.length = n := by rw [hlen]; omega
      obtain ⟨z, spare, hspare⟩ : ∃ z spare, p.spare = z :: spare := by
        cases hsp : p.spare with
        | nil => rw [hsp] at hcapl; simp at hcapl; omega
        | cons z spare => exact ⟨z, spare, rfl⟩
      obtain ⟨idx, hidx, hle, hlo, hhi⟩ := SearchFloat64s_spec p.values sample hsorted
      refine ⟨_, updateValues_fill ops p sample z spare idx hcond hspare hidx hle,
        hn1, hs1, ?_, ?_, ?_⟩
      · exact sorted_insert p.values _ idx sample hsorted hlo hhi (List.Sublist.refl _)
      · show (p.values.take idx ++ sample :: p.values.drop idx).length = min (n + 1) w
        simp only [List.length_append, List.length_take, List.length_cons, List.length_drop]
        omega
      · show (p.values.take idx ++ sample :: p.values.drop idx).length + spare.length = w
        rw [hspare] at hcapl
        simp only [List.length_append, List.length_take, List.length_cons, List.length_drop]
        simp only [List.length_cons] at hcapl
        omega
  · intro hn1
    have hn2 : (n : Int) + 1 = 9223372036854775808 := by omega
    have hs1 : wrapInt64 (p.samples + 1) = -9223372036854775808 := by
      rw [hsamples, hn2]
      exact wrapInt64_overflow
    have hcond : ¬ (wrapInt64 (p.samples + 1) > (p.cap : Int)) := by
      rw [hs1]; omega
    have hspare : p.spare = [] := by
      have h0 : p.spare.length = 0 := by omega
      exact List.length_eq_zero.1 h0
    obtain ⟨idx, hidx, _⟩ := SearchFloat64s_spec p.values sample hsorted
    exact updateValues_full ops p sample idx hcond hspare hidx

theorem AddSample_of_update {F α : Type} [LinearOrder α] (ops : Float64Ops F)
    (p q : Percentile F α) (sample : α) (hq : updateValues ops p sample = .ok q) :
    (0 ≤ q.index ops → ∃ v, AddSample ops p sample = .ok { q with value := v }) ∧
    (q.index ops < 0 → AddSample ops p sample = .error .indexOutOfRange) := by
  constructor
  · intro h0
    have hle := Percentile.index_le_last ops q
    have hlt : (q.index ops).toNat < q.values.length := by omega
    refine ⟨q.values[(q.index ops).toNat], ?_⟩
    simp only [AddSample, hq, indexInt, h0, if_true, index, List.getElem?_eq_getElem hlt, bind,
      Except.bind, pure, Except.pure]
  · intro h0
    have hneg : ¬ (0 ≤ q.index ops) := by omega
    simp only [AddSample, hq, indexInt, hneg, if_false, bind, Except.bind]

theorem AddSample_ok_inv {F α : Type} [LinearOrder α] (ops : Float64Ops F)
    (p r : Percentile F α) (sample : α) (h : AddSample ops p sample = .ok r) :
    ∃ q v, updateValues ops p sample = .ok q ∧ r = { q with value := v } := by
  cases hq : updateValues ops p sample with
  | error e => simp [AddSample, hq, bind, Except.bind] at h
  | ok q =>
    by_cases h0 : 0 ≤ q.index ops
    · obtain ⟨v, hv⟩ := (AddSample_of_update ops p q sample hq).1 h0
      rw [hv] at h
      exact ⟨q, v, rfl, (Except.ok.inj h).symm⟩
    · rw [(AddSample_of_update ops p q sample hq).2 (by omega)] at h
      cases h

theorem addSamples_inv {F α : Type} [LinearOrder α] (ops : Float64Ops F) (w : Nat)
    (hw : 1 ≤ w) (hw63 : w < 9223372036854775808) :
    ∀ (samples : List α) (n : Nat) (p r : Percentile F α), PercentileInv w n p →
      addSamples ops p samples = .ok r → PercentileInv w (n + samples.length) r := by
  intro samples
  induction samples with
  | nil =>
    intro n p r hinv h
    rw [← Except.ok.inj h]
    exact hinv
  | cons sample rest ih =>
    intro n p r hinv h
    cases hA : AddSample ops p sample with
    | error e => simp [addSamples, hA] at h
    | ok p1 =>
      simp only [addSamples, hA] at h
      obtain ⟨q, v, hq, hp1⟩ := AddSample_ok_inv ops p p1 sample hA
      have hstep := updateValues_inv ops w n p sample hw hw63 hinv
      by_cases hn1 : n + 1 < 9223372036854775808
      · obtain ⟨q2, hq2, hinv2⟩ := hstep.1 hn1
        rw [hq] at hq2
        have hqq : q = q2 := Except.ok.inj hq2
        subst hqq
        have hinv1 : PercentileInv w (n + 1) p1 := by
          rw [hp1]
          exact hinv2
        have := ih (n + 1) p1 r hinv1 h
        rw [List.length_cons, show n + (rest.length + 1) = n + 1 + rest.length by omega]
        exact this
      · rw [hstep.2 hn1] at hq
        cases hq

/-- C20: for a `Percentile` made by `NewPercentile` with sample window
w >= 1 (an `int`, so below 2^63), for every percentile and float arithmetic
and for samples from a linear order: after every sequence of n `AddSample`
calls that return, `values` is sorted in non-decreasing order and has
min(n, w) elements; and in a state reached by n < 2^63 - 1 calls the update of
`values` in the next call never fails and leaves `values` sorted with
min(n + 1, w) elements in every branch, the call returning unless the index
computed by `index()` for the final read is negative. -/
theorem C20_values_sorted_bounded {F α : Type} [LinearOrder α] [Zero α]
    (ops : Float64Ops F) (percentile : F) (w : Nat) (hw : 1 ≤ w)
    (hw63 : w < 9223372036854775808) :
    (∀ (samples : List α) (p : Percentile F α),
      addSamples ops (NewPercentile percentile w) samples = .ok p →
      p.values.Sorted (· ≤ ·) ∧ p.values.length = min samples.length w) ∧
    (∀ (n : Nat) (p : Percentile F α) (sample : α), PercentileInv w n p →
      n + 1 < 9223372036854775808 →
      ∃ q, updateValues ops p sample = .ok q ∧ PercentileInv w (n + 1) q ∧
        (0 ≤ q.index ops → ∃ v, AddSample ops p sample = .ok { q with value := v }) ∧
        (q.index ops < 0 → AddSample ops p sample = .error .indexOutOfRange)) := by
  constructor
  · intro samples p h
    obtain ⟨_, _, hsorted, hlen, _⟩ := addSamples_inv ops w hw hw63 samples 0
      (NewPercentile percentile w) p (NewPercentile_inv percentile w) h
    exact ⟨hsorted, by simpa using hlen⟩
  · intro n p sample hinv hn1
    obtain ⟨q, hq, hqinv⟩ := (updateValues_inv ops w n p sample hw hw63 hinv).1 hn1
    exact ⟨q, hq, hqinv, AddSample_of_update ops p q sample hq⟩

/-- Witness of C20: percentile 0.5 and window 3.  Nine samples go through the
filling branch three times and then through each branch of a full window:
drop the smallest and insert (6), insert and drop the largest (7), discard
(2, 8, 3), put in front and drop the largest (4).  With percentile -0.5 the
first call updates `values` and then fails at the final read. -/
theorem C20_values_sorted_bounded_witness :
    addSamples halvesOps (NewPercentile 1 3 : Percentile Int Nat) [5, 1, 9, 6, 7, 2, 8, 3, 4]
      = .ok ⟨1, 9, 3, [4, 5, 6], [], 6⟩ ∧
    (([4, 5, 6] : List Nat).Sorted (· ≤ ·) ∧
      ([4, 5, 6] : List Nat).length
        = min ([5, 1, 9, 6, 7, 2, 8, 3, 4] : List Nat).length 3) ∧
    updateValues halvesOps (NewPercentile (-1) 2 : Percentile Int Nat) 1
      = .ok ⟨-1, 1, 0, [1], [0], 0⟩ ∧
    AddSample halvesOps (NewPercentile (-1) 2 : Percentile Int Nat) 1
      = .error .indexOutOfRange := by
  have s1 : AddSample halvesOps (NewPercentile 1 3 : Percentile Int Nat) 5
      = .ok ⟨1, 1, 0, [5], [0, 0], 5⟩ := by decide
  have s2 : AddSample halvesOps (⟨1, 1, 0, [5], [0, 0], 5⟩ : Percentile Int Nat) 1
      = .ok ⟨1, 2, 0, [1, 5], [0], 5⟩ := by decide
  have s3 : AddSample halvesOps (⟨1, 2, 0, [1, 5], [0], 5⟩ : Percentile Int Nat) 9
      = .ok ⟨1, 3, 0, [1, 5, 9], [], 9⟩ := by decide
  have s4 : AddSample halvesOps (⟨1, 3, 0, [1, 5, 9], [], 9⟩ : Percentile Int Nat) 6
      = .ok ⟨1, 4, 1, [5, 6, 9], [], 6⟩ := by decide
  have s5 : AddSample halvesOps (⟨1, 4, 1, [5, 6, 9], [], 6⟩ : Percentile Int Nat) 7
      = .ok ⟨1, 5, 1, [5, 6, 7], [], 7⟩ := by decide
  have s6 : AddSample halvesOps (⟨1, 5, 1, [5, 6, 7], [], 7⟩ : Percentile Int Nat) 2
      = .ok ⟨1, 6, 2, [5, 6, 7], [], 6⟩ := by decide
  have s7 : AddSample halvesOps (⟨1, 6, 2, [5, 6, 7], [], 6⟩ : Percentile Int Nat) 8
      = .ok ⟨1, 7, 2, [5, 6, 7], [], 7⟩ := by decide
  have s8 : AddSample halvesOps (⟨1, 7, 2, [5, 6, 7], [], 7⟩ : Percentile Int Nat) 3
      = .ok ⟨1, 8, 3, [5, 6, 7], [], 6⟩ := by decide
  have s9 : AddSample halvesOps (⟨1, 8, 3, [5, 6, 7], [], 6⟩ : Percentile Int Nat) 4
      = .ok ⟨1, 9, 3, [4, 5, 6], [], 6⟩ := by decide
  have run : addSamples halvesOps (NewPercentile 1 3 : Percentile Int Nat)
      [5, 1, 9, 6, 7, 2, 8, 3, 4] = .ok ⟨1, 9, 3, [4, 5, 6], [], 6⟩ := by
    simp only [addSamples, s1, s2, s3, s4, s5, s6, s7, s8, s9]
  exact ⟨run,
    (@C20_values_sorted_bounded Int Nat _ _ halvesOps 1 3 (by decide) (by decide)).1
      [5, 1, 9, 6, 7, 2, 8, 3, 4] ⟨1, 9, 3, [4, 5, 6], [], 6⟩ run,
    by decide, by decide⟩

end Chihaya
